import Mathlib

/-!
# Verification of the BMJson single-header JSON library

A shallow embedding of `BMJson.h`: the tagged-union value model, the
tokenizer, the recursive-descent parser with its latched error slot, the
serializer, and the accessor wrapper.  Strings are modelled as `List Char`,
`int64_t` as `Int` (with explicit range checks where the source's conversion
functions enforce them), `double` as `Rat` (the source's `std::to_string` /
`std::stod` renderings are modelled on rationals), and `std::shared_ptr`
containers as inductive subtrees, with a dedicated constructor for a null
container pointer.  Fallible native conversions return `Option`; a C++
exception escaping the parser is a distinct outcome of the parse.
-/

set_option maxRecDepth 8192

namespace BMJsonModel

abbrev LChar := List Char

/-! ## Character classes (`<cctype>` on ASCII input) -/

def isDigitC (c : Char) : Bool := '0' ≤ c && c ≤ '9'

def isSpaceC (c : Char) : Bool :=
  c = ' ' || c = '\t' || c = '\n' || c = '\x0b' || c = '\x0c' || c = '\r'

/-- `JsonTokenizer::IsValidNumberChar`. -/
def isValidNumberChar (c : Char) : Bool :=
  isDigitC c || c = '.' || c = '-' || c = '+' || c = 'e' || c = 'E'

/-! ## Tokens -/

inductive JsonTokenType where
  | None | ObjectStart | ObjectEnd | ArrayStart | ArrayEnd
  | String | Number | Boolean | Null | Comma | Colon | Invalid
deriving DecidableEq

structure JsonToken where
  type : JsonTokenType
  pos : Nat
  val : LChar
deriving DecidableEq

/-! ## The tokenizer

`JsonTokenizer` keeps a position cursor and a one-token lookahead cache.
The cache only ever holds the deterministic result of `NextToken` at the
already-advanced position, so `PeekToken`/`GetToken` are modelled by the
pure function `nextToken` applied at the current position: `PeekToken`
returns the token without moving the position, `GetToken` returns it and
moves past it. -/

/-- `SkipWhitespace`, counted on the suffix. -/
def countLeadingWs : LChar → Nat
  | [] => 0
  | c :: cs => if isSpaceC c then countLeadingWs cs + 1 else 0

/-- The greedy run of number characters (`ParseNumer`'s loop). -/
def takeNumberChars : LChar → LChar
  | [] => []
  | c :: cs => if isValidNumberChar c then c :: takeNumberChars cs else []

/-- The body of `JsonTokenizer::ParseString`, starting just after the opening
quote.  Returns the token value and the number of characters consumed.
`Get()` at end of input returns `'\x00'` without advancing, which ends the
loop; after a backslash the next character is appended verbatim (a backslash
as the final character appends that `'\x00'`). -/
def scanStringBody : LChar → LChar × Nat
  | [] => ([], 0)
  | c :: rest =>
    if c = '\x00' then ([], 1)
    else if c = '\\' then
      match rest with
      | [] => (['\x00'], 1)
      | d :: rest2 =>
        let (v, n) := scanStringBody rest2
        (d :: v, n + 2)
    else if c = '"' then ([], 1)
    else
      let (v, n) := scanStringBody rest
      (c :: v, n + 1)

structure TokStep where
  type : JsonTokenType
  val : LChar
  adv : Nat
deriving DecidableEq

/-- `JsonTokenizer::NextToken`'s dispatch at a whitespace-free position. -/
def tokenizeAt : LChar → TokStep
  | [] => ⟨.None, [], 0⟩
  | c :: rest =>
    if c = '\x7b' then ⟨.ObjectStart, [c], 1⟩
    else if c = '\x7d' then ⟨.ObjectEnd, [c], 1⟩
    else if c = '[' then ⟨.ArrayStart, [c], 1⟩
    else if c = ']' then ⟨.ArrayEnd, [c], 1⟩
    else if c = ',' then ⟨.Comma, [c], 1⟩
    else if c = ':' then ⟨.Colon, [c], 1⟩
    else if c = 'n' then
      if (c :: rest).take 4 = ['n', 'u', 'l', 'l'] then ⟨.Null, ['n', 'u', 'l', 'l'], 4⟩
      else ⟨.Invalid, [], 0⟩
    else if c = '"' then
      let (v, n) := scanStringBody rest
      ⟨.String, v, n + 1⟩
    else if c = 't' || c = 'f' then
      if (c :: rest).take 4 = ['t', 'r', 'u', 'e'] then ⟨.Boolean, ['t', 'r', 'u', 'e'], 4⟩
      else if (c :: rest).take 5 = ['f', 'a', 'l', 's', 'e'] then
        ⟨.Boolean, ['f', 'a', 'l', 's', 'e'], 5⟩
      else ⟨.Invalid, [], 0⟩
    else if isValidNumberChar c then
      let v := takeNumberChars (c :: rest)
      ⟨.Number, v, v.length⟩
    else ⟨.Invalid, [], 0⟩

/-- `NextToken`: skip whitespace, then lex one token.  Returns the token
(with its recorded start position) and the tokenizer position after it. -/
def nextToken (input : LChar) (pos : Nat) : JsonToken × Nat :=
  let s := input.drop pos
  let w := countLeadingWs s
  let t := tokenizeAt (s.drop w)
  (⟨t.type, pos + w, t.val⟩, pos + w + t.adv)

/-! ## The value model

`JsonValue = std::variant<UndefinedValue, nullptr_t, bool, int64_t, double,
std::string, shared_ptr<JsonArray>, shared_ptr<JsonObject>>`.  A held
container pointer may be null (the parser's error paths return `{}`);
`arrNull`/`objNull` are those states.  `JsonObject::Properties` is an
unordered map; it is modelled as an association list with the (C++-enforced)
invariant of unique keys, iteration order being the list order. -/

inductive Value where
  | undef
  | null
  | bool (b : Bool)
  | int (n : Int)
  | float (q : Rat)
  | str (s : LChar)
  | arr (elems : List Value)
  | arrNull
  | obj (props : List (LChar × Value))
  | objNull

/-- `unordered_map::find` on the modelled property list. -/
def lookupKey (k : LChar) : List (LChar × Value) → Option Value
  | [] => none
  | (k2, v) :: rest => if k = k2 then some v else lookupKey k rest

/-- `unordered_map::emplace`: inserts only when the key is absent. -/
def emplaceEntry (k : LChar) (v : Value) (ps : List (LChar × Value)) :
    List (LChar × Value) :=
  if (lookupKey k ps).isSome then ps else ps ++ [(k, v)]

/-! ## Native numeric conversion models -/

def digitsToNat (ds : LChar) : Nat :=
  ds.foldl (fun a c => a * 10 + (c.toNat - '0'.toNat)) 0

/-- `std::stoll` (`strtoll`, base 10): skip whitespace, optional sign, a
nonempty digit run (otherwise `std::invalid_argument`), value outside the
`int64_t` range raising `std::out_of_range`.  `none` models a thrown
exception; trailing non-digit text is ignored. -/
def stollModel (s : LChar) : Option Int :=
  let s1 := s.drop (countLeadingWs s)
  let (sign, s2) : Int × LChar :=
    if s1.head? = some '-' then (-1, s1.tail)
    else if s1.head? = some '+' then (1, s1.tail)
    else (1, s1)
  let ds := s2.takeWhile isDigitC
  if ds = [] then none
  else
    let v : Int := sign * (digitsToNat ds : Int)
    if v < -(2 ^ 63) ∨ 2 ^ 63 - 1 < v then none else some v

/-! Rational arithmetic spelled through `mkRat` (kept reducible so that
concrete parses and serializations evaluate inside proofs). -/

def qadd (a b : Rat) : Rat := mkRat (a.num * b.den + b.num * a.den) (a.den * b.den)

def qmul (a b : Rat) : Rat := mkRat (a.num * b.num) (a.den * b.den)

/-- `a / b` for `b ≠ 0`: multiply by the inverse, carrying `b`'s sign onto
the numerator. -/
def qdiv (a b : Rat) : Rat :=
  if b.num < 0 then mkRat (-(a.num * b.den)) (a.den * b.num.natAbs)
  else mkRat (a.num * b.den) (a.den * b.num.natAbs)

def qneg (a : Rat) : Rat := mkRat (-a.num) a.den

/-- One decimal fraction: digits after the point, as numerator/scale. -/
def fracVal (ds : LChar) : Rat := mkRat (digitsToNat ds) (10 ^ ds.length)

/-- `std::stod` (`strtod` on decimal text): sign, digits, optional point and
digits (at least one mantissa digit required), optional exponent with at
least one digit.  The exact rational value stands in for the rounded
`double`; overflow/underflow raising `std::out_of_range` is modelled by the
`double`-range bounds.  `none` models a thrown exception. -/
def stodModel (s : LChar) : Option Rat :=
  let s1 := s.drop (countLeadingWs s)
  let (neg, s2) : Bool × LChar :=
    if s1.head? = some '-' then (true, s1.tail)
    else if s1.head? = some '+' then (false, s1.tail)
    else (false, s1)
  let ip := s2.takeWhile isDigitC
  let s3 := s2.drop ip.length
  let (fp, s4) : LChar × LChar :=
    match s3 with
    | '.' :: r => (r.takeWhile isDigitC, r.drop (r.takeWhile isDigitC).length)
    | _ => ([], s3)
  if ip = [] ∧ fp = [] then none
  else
    let mant : Rat := qadd (mkRat (digitsToNat ip) 1) (fracVal fp)
    let expPart : Int :=
      match s4 with
      | 'e' :: r | 'E' :: r =>
        let (esign, r2) : Int × LChar :=
          if r.head? = some '-' then (-1, r.tail)
          else if r.head? = some '+' then (1, r.tail)
          else (1, r)
        let eds := r2.takeWhile isDigitC
        if eds = [] then 0 else esign * (digitsToNat eds : Int)
      | _ => 0
    let scaled : Rat :=
      if 0 ≤ expPart then qmul mant (mkRat (10 ^ expPart.toNat : Nat) 1)
      else qdiv mant (mkRat (10 ^ (-expPart).toNat : Nat) 1)
    let v : Rat := if neg then qneg scaled else scaled
    if ((2 ^ 128 : Nat) ^ 8) * v.den < v.num.natAbs ∨
        (v.num ≠ 0 ∧ v.num.natAbs * ((2 ^ 215 : Nat) ^ 5) < v.den) then none
    else some v

/-- `ParseValue`'s `IsFloat` test: the token text contains `'.'` or a
lowercase `'e'` (`Value.find('.') != npos || Value.find('e') != npos`). -/
def isFloatTokVal (s : LChar) : Bool := s.contains '.' || s.contains 'e'

/-- The numeric conversion in `ParseValue`'s `Number` branch; `none` models
the native conversion exception escaping. -/
def numberConvert (s : LChar) : Option Value :=
  if isFloatTokVal s then (stodModel s).map Value.float
  else (stollModel s).map Value.int

/-! ## The serializer -/

def digitChar10 : Nat → Char
  | 0 => '0' | 1 => '1' | 2 => '2' | 3 => '3' | 4 => '4'
  | 5 => '5' | 6 => '6' | 7 => '7' | 8 => '8' | _ => '9'

/-- Decimal digits of a positive number, most significant first (empty for
zero); the first argument is fuel bounding the recursion (any bound at
least the number itself is exact). -/
def natToDecAux : Nat → Nat → LChar
  | 0, _ => []
  | _ + 1, 0 => []
  | fuel + 1, n + 1 =>
    natToDecAux fuel ((n + 1) / 10) ++ [digitChar10 ((n + 1) % 10)]

/-- Minimal decimal rendering of a natural number. -/
def natToDec (n : Nat) : LChar := if n = 0 then ['0'] else natToDecAux n n

/-- `std::to_string(int64_t)`: minimal decimal text, `'-'`-prefixed when
negative. -/
def intToDec (n : Int) : LChar :=
  if n < 0 then '-' :: natToDec n.natAbs else natToDec n.toNat

def padLeftZeros (n : Nat) (s : LChar) : LChar :=
  List.replicate (n - s.length) '0' ++ s

/-- `std::to_string(double)`: `%f` rendering, six digits after the point,
rounding to nearest, modelled on the rational stand-in. -/
def fmtFixed6 (q : Rat) : LChar :=
  let a : Rat := if Rat.blt q 0 then qneg q else q
  let scaled : Nat := (qadd (qmul a (mkRat 1000000 1)) (mkRat 1 2)).floor.toNat
  let ip := scaled / 1000000
  let fp := scaled % 1000000
  (if Rat.blt q 0 then ['-'] else []) ++ natToDec ip ++
    '.' :: padLeftZeros 6 (natToDec fp)

def tabs (n : Nat) : LChar := List.replicate n '\t'

/-- `HasType<JsonObject>(v) || HasType<JsonArray>(v)` (a null container
pointer still holds that variant). -/
def isContainer : Value → Bool
  | .arr _ | .arrNull | .obj _ | .objNull => true
  | _ => false

mutual

/-- `Json::SerializeValue`.  An `Undefined` value matches no branch and
contributes nothing.  A null container pointer would be dereferenced by the
source (undefined behaviour); it is rendered as nothing and is unreachable
from well-formed documents. -/
def serializeValue : Value → Bool → Nat → LChar
  | .undef, _, _ => []
  | .null, _, _ => ['n', 'u', 'l', 'l']
  | .bool b, _, _ => if b then ['t', 'r', 'u', 'e'] else ['f', 'a', 'l', 's', 'e']
  | .int n, _, _ => intToDec n
  | .float q, _, _ => fmtFixed6 q
  | .str s, _, _ => '"' :: s ++ ['"']
  | .arr xs, p, d => serializeArray xs p (d + 1)
  | .arrNull, _, _ => []
  | .obj ps, p, d => serializeObject ps p (d + 1)
  | .objNull, _, _ => []

/-- The element loop of `Json::SerializeArray`. -/
def serArrItems : List Value → Bool → Nat → Bool → LChar
  | [], _, _, _ => []
  | v :: vs, p, d, first =>
    (if first then [] else [',']) ++ (if p then '\n' :: tabs (d + 1) else []) ++
      serializeValue v p d ++ serArrItems vs p d false

/-- `Json::SerializeArray`. -/
def serializeArray (xs : List Value) (p : Bool) (d : Nat) : LChar :=
  let r := '[' :: serArrItems xs p d true
  (if p ∧ 1 < r.length then r ++ '\n' :: tabs d else r) ++ [']']

/-- The member loop of `Json::SerializeObject`: each member renders as
`"key":` + separator + value, the separator being a newline+indent in pretty
mode when the value is a container, else one space. -/
def serObjItems : List (LChar × Value) → Bool → Nat → Bool → LChar
  | [], _, _, _ => []
  | (k, v) :: es, p, d, first =>
    let sep := if p ∧ isContainer v then '\n' :: tabs (d + 1) else [' ']
    (if first then [] else [',']) ++ (if p then '\n' :: tabs (d + 1) else []) ++
      '"' :: k ++ '"' :: ':' :: sep ++ serializeValue v p d ++ serObjItems es p d false

/-- `Json::SerializeObject`. -/
def serializeObject (ps : List (LChar × Value)) (p : Bool) (d : Nat) : LChar :=
  let r := '\x7b' :: serObjItems ps p d true
  (if p ∧ 1 < r.length then r ++ '\n' :: tabs d else r) ++ ['\x7d']

end

/-! ## Parser state and error reporting -/

/-- The parsing-relevant state of a `Json` object mid-parse: the tokenizer's
input and position, `CurrentToken`, and the latched `ErrorMessage` slot. -/
structure PSt where
  input : LChar
  pos : Nat
  cur : JsonToken
  err : Option LChar
deriving DecidableEq

def hasErrorSt (st : PSt) : Bool := st.err.isSome

/-- The context window and message built by `Json::ThrowError`
(`std::format("Error at position {}[{}]: {} \nError Reason: {}", ...)`). -/
def buildErrMsg (input : LChar) (tok : JsonToken) (msg : LChar) : LChar :=
  let loc : LChar :=
    if input.length ≤ tok.pos then "Error position out of bounds".toList
    else
      let start := if 50 ≤ tok.pos then tok.pos - 50 else 0
      let diff := tok.pos - start
      let stop := min (tok.pos + 50 + diff) input.length
      let raw := (input.drop start).take (stop - start)
      if 0 < diff then raw.take diff ++ " *ERROR*--> ".toList ++ raw.drop diff
      else raw
  "Error at position ".toList ++ (toString tok.pos).toList ++ '[' :: tok.val ++
    ']' :: ':' :: ' ' :: loc ++ " \nError Reason: ".toList ++ msg

/-- `Json::ThrowError`: first error wins; once the slot is set every later
call is a no-op. -/
def throwErr (st : PSt) (tok : JsonToken) (msg : LChar) : PSt :=
  if st.err.isSome then st else { st with err := some (buildErrMsg st.input tok msg) }

/-- `Json::UpdateToken(true)` (`Peek`): set `CurrentToken` to the next token
without consuming it, reporting an `Invalid` token. -/
def peekSt (st : PSt) : PSt :=
  let t := (nextToken st.input st.pos).1
  let st' := { st with cur := t }
  if t.type = .Invalid then throwErr st' t "Invalid token".toList else st'

/-- `Json::UpdateToken(false)` (`Consume`): set `CurrentToken` to the next
token and consume it, reporting an `Invalid` token. -/
def consumeSt (st : PSt) : PSt :=
  let (t, p) := nextToken st.input st.pos
  let st' := { st with cur := t, pos := p }
  if t.type = .Invalid then throwErr st' t "Invalid token".toList else st'

/-! ## The recursive-descent parser

The source recurses without an explicit bound; the model threads a fuel
counter decremented at every call, and `Json::Parse` supplies more fuel than
any input can use (each recursive call or loop iteration consumes input).
`PRes.exc` is a native conversion exception unwinding out of the parser;
`PRes.out` is fuel exhaustion, a modelling artifact.  A returned `none`
container is the source's null `shared_ptr` (`return {}`). -/

inductive PRes (α : Type) where
  | ok (a : α) (st : PSt)
  | exc (st : PSt)
  | out
deriving DecidableEq

mutual

/-- `Json::ParseValue`. -/
def parseValue : Nat → PSt → PRes Value
  | 0, _ => .out
  | f + 1, st0 =>
    let st := peekSt st0
    match st.cur.type with
    | .ObjectStart =>
      match parseObject f st with
      | .ok o st' => .ok (match o with | some ps => .obj ps | none => .objNull) st'
      | .exc st' => .exc st'
      | .out => .out
    | .ArrayStart =>
      match parseArray f st with
      | .ok a st' => .ok (match a with | some xs => .arr xs | none => .arrNull) st'
      | .exc st' => .exc st'
      | .out => .out
    | .String =>
      let st' := consumeSt st
      .ok (.str st'.cur.val) st'
    | .Number =>
      let st' := consumeSt st
      match numberConvert st'.cur.val with
      | some v => .ok v st'
      | none => .exc st'
    | .Null => .ok .null (consumeSt st)
    | .Boolean =>
      let st' := consumeSt st
      .ok (.bool (st'.cur.val = ['t', 'r', 'u', 'e'])) st'
    | _ => .ok .undef (throwErr st st.cur "Unexpected token while parsing value".toList)

/-- `Json::ParseArray`. -/
def parseArray : Nat → PSt → PRes (Option (List Value))
  | 0, _ => .out
  | f + 1, st0 =>
    let st1 := consumeSt st0
    if st1.cur.type ≠ .ArrayStart then
      .ok none (throwErr st1 st1.cur "Expected '['".toList)
    else
      let st2 := peekSt st1
      if st2.cur.type = .ArrayEnd then .ok (some []) (consumeSt st2)
      else parseArrLoop f [] st2

/-- The element loop of `Json::ParseArray` (`Values` is the accumulator). -/
def parseArrLoop : Nat → List Value → PSt → PRes (Option (List Value))
  | 0, _, _ => .out
  | f + 1, acc, st =>
    match parseValue f st with
    | .out => .out
    | .exc s => .exc s
    | .ok v st1 =>
      if hasErrorSt st1 then .ok none st1
      else
        let acc' := acc ++ [v]
        let st2 := consumeSt st1
        if st2.cur.type ≠ .Comma ∧ st2.cur.type ≠ .ArrayEnd then
          .ok none (throwErr st2 st2.cur "Expected ',' or ']'".toList)
        else if st2.cur.type = .ArrayEnd then .ok (some acc') st2
        else parseArrLoop f acc' (peekSt st2)

/-- `Json::ParseObject`. -/
def parseObject : Nat → PSt → PRes (Option (List (LChar × Value)))
  | 0, _ => .out
  | f + 1, st0 =>
    let st1 := consumeSt st0
    if st1.cur.type ≠ .ObjectStart then
      .ok none (throwErr st1 st1.cur "Expected '\x7b'".toList)
    else
      let st2 := peekSt st1
      if st2.cur.type = .ObjectEnd then .ok (some []) (consumeSt st2)
      else parseObjLoop f [] st2

/-- The member loop of `Json::ParseObject` (`Result->Properties` is the
accumulator; insertion is `emplace`, so a repeated key is dropped). -/
def parseObjLoop : Nat → List (LChar × Value) → PSt → PRes (Option (List (LChar × Value)))
  | 0, _, _ => .out
  | f + 1, acc, st =>
    if st.cur.type ≠ .String then
      .ok none (throwErr st st.cur "Expected string key".toList)
    else
      let stk := consumeSt st
      let key := stk.cur.val
      let stc := consumeSt stk
      if stc.cur.type ≠ .Colon then
        .ok none (throwErr stc stc.cur "Expected ':'".toList)
      else
        match parseValue f stc with
        | .out => .out
        | .exc s => .exc s
        | .ok v st1 =>
          if hasErrorSt st1 then .ok none st1
          else
            let acc' := emplaceEntry key v acc
            let st2 := consumeSt st1
            if st2.cur.type ≠ .Comma ∧ st2.cur.type ≠ .ObjectEnd then
              .ok none (throwErr st2 st2.cur "Expected ',' or '\x7d'".toList)
            else if st2.cur.type = .ObjectEnd then .ok (some acc') st2
            else parseObjLoop f acc' (peekSt st2)

end

/-! ## The `Json` document -/

/-- The persistent state of a `Json` object: `RootObject` (a possibly-null
`shared_ptr<JsonObject>`), the latched `ErrorMessage`, the tokenizer's input
and the member `CurrentToken`. -/
structure JDoc where
  root : Option (List (LChar × Value))
  err : Option LChar
  tokIn : LChar
  cur : JsonToken

/-- A default-constructed `Json`: fresh empty root object, no error. -/
def freshDoc : JDoc :=
  { root := some [], err := none, tokIn := [], cur := ⟨.Invalid, 0, []⟩ }

/-- Fuel for one parse: the source recursion consumes input on every cycle
(at most three nested calls per consumed character), so this exceeds what
any input can use. -/
def parseFuel (input : LChar) : Nat := 2 * input.length + 16

/-- The observable outcome of `Json::Parse`: normal return, or a native
conversion exception unwinding out of `Parse` (leaving `RootObject`
untouched), or the model's fuel marker. -/
inductive ParseOutcome where
  | done (d : JDoc)
  | thrown (d : JDoc)
  | out

/-- `Json::Parse`: re-init the tokenizer on the input, clear the error slot,
then `RootObject = ParseObject()`. -/
def jsonParse (d : JDoc) (input : LChar) : ParseOutcome :=
  match parseObject (parseFuel input) ⟨input, 0, d.cur, none⟩ with
  | .ok r st => .done { root := r, err := st.err, tokIn := input, cur := st.cur }
  | .exc st => .thrown { root := d.root, err := st.err, tokIn := input, cur := st.cur }
  | .out => .out

/-- `Json::Serialize`: empty when `RootObject` is null, else the root object
rendered at depth 0. -/
def jsonSerialize (d : JDoc) (pretty : Bool) : LChar :=
  match d.root with
  | none => []
  | some ps => serializeObject ps pretty 0

/-- `Json::HasError`. -/
def jsonHasError (d : JDoc) : Bool := d.err.isSome

/-- `Json::Reset`: clear (or create) the root object's contents, re-init the
tokenizer on empty input, clear the error slot and `CurrentToken`. -/
def jsonReset (d : JDoc) (bCreateRoot : Bool) : JDoc :=
  let d1 := if bCreateRoot then { d with root := some [] } else d
  { d1 with tokIn := [], err := none, cur := ⟨.Invalid, 0, []⟩ }

/-- The error slot an outcome leaves behind. -/
def outcomeErr : ParseOutcome → Option LChar
  | .done d => d.err
  | .thrown d => d.err
  | .out => none

/-! ## Accessors (`JsonValueWrapper`) -/

/-- Non-const `Json::operator[]`: ensure a root object exists, then
`RootObject->Properties[Key]`, whose `operator[]` default-inserts an
`UndefinedValue` entry for an absent key.  Returns the bound slot's value
and the updated document. -/
def jsonIndexNC (d : JDoc) (k : LChar) : Value × JDoc :=
  let ps := d.root.getD []
  let ps' := if (lookupKey k ps).isSome then ps else ps ++ [(k, Value.undef)]
  ((lookupKey k ps').getD Value.undef, { d with root := some ps' })

/-- Non-const `JsonObject::operator[]`: `Properties[Key]` default-inserts an
`UndefinedValue` entry for an absent key. -/
def objIndexNC (ps : List (LChar × Value)) (k : LChar) :
    Value × List (LChar × Value) :=
  let ps' := if (lookupKey k ps).isSome then ps else ps ++ [(k, Value.undef)]
  ((lookupKey k ps').getD Value.undef, ps')

/-- Const `JsonObject::operator[]`: `find`, no insertion; an absent key
binds the static `UndefinedValue`.  The properties are returned unchanged
alongside, recording that the lookup writes nothing. -/
def objIndexC (ps : List (LChar × Value)) (k : LChar) :
    Value × List (LChar × Value) :=
  (match lookupKey k ps with
   | some v => v
   | none => Value.undef, ps)

/-- `JsonArray::operator[]`: `Values.at(Index)`, which throws
`std::out_of_range` for an index at or past the length.  `.error` is the
thrown (catchable) exception. -/
def arrayIndex (vals : List Value) (i : Nat) : Except Unit Value :=
  if h : i < vals.length then .ok (vals.get ⟨i, h⟩) else .error ()

/-- `HasType<UndefinedValue>`, the test `Else` fires on for a plain
accessor. -/
def hasTypeUndef : Value → Bool
  | .undef => true
  | _ => false

/-- `JsonValueWrapper::Else` on a plain (non-defaulted) wrapper: the
callback fires exactly when the slot holds `UndefinedValue`. -/
def elseFires (slot : Value) : Bool := hasTypeUndef slot

/-- `Get_Internal<int64_t>` on a writable plain wrapper: a slot of another
type is overwritten with `int64_t{}` before being read. -/
def getInternalIntNC (slot : Value) : Int × Value :=
  match slot with
  | .int n => (n, slot)
  | _ => (0, Value.int 0)

/-- `Get_Internal<int64_t>` on a read-only plain wrapper: a slot of another
type throws ("Field is not of the requested type"). -/
def getInternalIntC (slot : Value) : Except Unit Int :=
  match slot with
  | .int n => .ok n
  | _ => .error ()

/-- `Get_Internal<int64_t>` on a defaulted (`Or`) wrapper: read the slot if
it matches, else the default if it matches, else throw ("Or value is not of
the requested type").  The slot is returned alongside: this path performs no
assignment. -/
def getInternalIntOr (slot dflt : Value) : Except Unit Int × Value :=
  (match slot with
   | .int n => .ok n
   | _ =>
     match dflt with
     | .int m => .ok m
     | _ => .error (), slot)

/-! ## Tree equivalence (the round-trip claim's notion of equality)

Equality "in structure and scalar values, comparing object keys
order-insensitively and array elements order-sensitively", stated from the
specification's words: arrays match pointwise in order, objects match when
each member of one has an equivalent member under the same key in the other
and the key sets coincide. -/

/-- Every key of `qs` occurs in `ps`. -/
def keysCovered (qs ps : List (LChar × Value)) : Bool :=
  qs.all fun q => (lookupKey q.1 ps).isSome

mutual

def treeEquiv : Value → Value → Bool
  | .undef, .undef => true
  | .null, .null => true
  | .bool a, .bool b => a == b
  | .int a, .int b => a == b
  | .float a, .float b => a == b
  | .str a, .str b => a == b
  | .arr xs, .arr ys => arrEquiv xs ys
  | .arrNull, .arrNull => true
  | .obj ps, .obj qs => objSubEquiv ps qs && keysCovered qs ps
  | .objNull, .objNull => true
  | _, _ => false
termination_by a _ => (sizeOf a, 0)
decreasing_by all_goals (simp_wf <;> omega)

def arrEquiv : List Value → List Value → Bool
  | [], [] => true
  | x :: xs, y :: ys => treeEquiv x y && arrEquiv xs ys
  | _, _ => false
termination_by xs _ => (sizeOf xs, 0)
decreasing_by all_goals (simp_wf <;> omega)

def objSubEquiv : List (LChar × Value) → List (LChar × Value) → Bool
  | [], _ => true
  | (k, v) :: rest, qs => keyMatch k v qs && objSubEquiv rest qs
termination_by ps _ => (sizeOf ps, 0)
decreasing_by all_goals (simp_wf <;> omega)

def keyMatch : LChar → Value → List (LChar × Value) → Bool
  | _, _, [] => false
  | k, v, (k2, w) :: qs => if k = k2 then treeEquiv v w else keyMatch k v qs
termination_by _ v qs => (sizeOf v, sizeOf qs)
decreasing_by all_goals (simp_wf <;> omega)

end

/-- The round-trip claim's stated restriction on embedded text: no raw
quote and no control characters (backslashes are not excluded by it). -/
def claimStrOK (s : LChar) : Bool := s.all fun c => ¬(c = '"') && 32 ≤ c.toNat

/-- Text that serializes into a string literal and re-tokenizes unchanged:
no raw quote, no backslash, no control characters. -/
def strPlain (s : LChar) : Bool :=
  s.all fun c => ¬(c = '"') && ¬(c = '\\') && 32 ≤ c.toNat

/-! ## Well-formed trees (the amended round-trip claim's universe)

A tree the C++ library can hold and faithfully re-read: every string and
key is plain text (no quote/backslash/control characters), integers are in
the `int64_t` range, object keys are unique (the `unordered_map`
invariant), and there are no `Undefined` slots, no null container
pointers, and no float leaves (the `%f` rendering of `std::to_string`
truncates doubles to six decimals).  Finite trees have no cycles. -/

mutual

def wfV : Value → Bool
  | .undef => false
  | .null => true
  | .bool _ => true
  | .int n => decide (-(2 ^ 63) ≤ n) && decide (n ≤ 2 ^ 63 - 1)
  | .float _ => false
  | .str s => strPlain s
  | .arr xs => wfArr xs
  | .arrNull => false
  | .obj ps => wfProps ps
  | .objNull => false

def wfArr : List Value → Bool
  | [] => true
  | x :: xs => wfV x && wfArr xs

def wfProps : List (LChar × Value) → Bool
  | [] => true
  | (k, v) :: rest =>
    strPlain k && wfV v && (lookupKey k rest).isNone && wfProps rest

end

/-! ## Helper lemmas -/

theorem lookupKey_append_right (k : LChar) (ps : List (LChar × Value)) (v : Value)
    (h : lookupKey k ps = none) : lookupKey k (ps ++ [(k, v)]) = some v := by
  induction ps with
  | nil => simp [lookupKey]
  | cons p rest ih =>
    obtain ⟨k2, w⟩ := p
    by_cases hk : k = k2
    · simp [lookupKey, hk] at h
    · simp only [lookupKey, List.cons_append, if_neg hk] at h ⊢
      exact ih h

/-! # The claims -/

/-- C7: for every `JsonArray` and every index at or past the array's
length, `operator[]`'s `Values.at(Index)` throws a catchable
`std::out_of_range` — modelled as the `.error` result — never undefined
behaviour and never a silently returned default. -/
theorem C7_array_index_out_of_bounds_throws (vals : List Value) (i : Nat)
    (h : vals.length ≤ i) : arrayIndex vals i = .error () := by
  unfold arrayIndex
  rw [dif_neg (by omega)]

theorem C7_array_index_out_of_bounds_throws_witness :
    [Value.int 1, Value.int 2].length ≤ 2 ∧
      arrayIndex [Value.int 1, Value.int 2] 2 = .error () :=
  ⟨by decide, C7_array_index_out_of_bounds_throws [Value.int 1, Value.int 2] 2 (by decide)⟩

/-- C9: serializing an `Undefined` value produces empty text; an object
member holding `Undefined` serializes as the quoted key, colon and the
space separator followed by nothing, and the resulting text is rejected by
the parser (not valid JSON); a non-const key lookup on a missing key leaves
such an `Undefined` entry behind. -/
theorem C9_undefined_serializes_to_nothing :
    (∀ p d, serializeValue Value.undef p d = []) ∧
    (∀ k, serializeObject [(k, Value.undef)] false 0 =
      '\x7b' :: '"' :: k ++ ['"', ':', ' ', '\x7d']) ∧
    (∃ d, jsonParse freshDoc ('\x7b' :: '"' :: 'k' :: ['"', ':', ' ', '\x7d']) = .done d ∧
      jsonHasError d = true) ∧
    (jsonIndexNC freshDoc ['k']).2.root = some [(['k'], Value.undef)] := by
  refine ⟨fun p d => by simp [serializeValue], fun k => ?_, ⟨_, rfl, rfl⟩, rfl⟩
  simp [serializeObject, serObjItems, serializeValue, isContainer]

/-- C10: const `JsonObject::operator[]` on an absent key inserts nothing
and binds an `Undefined` slot, so `Else` fires and a typed read through the
read-only wrapper throws a type mismatch; non-const `operator[]` instead
default-inserts an `Undefined`-valued entry for the key. -/
theorem C10_const_index_absent_key (ps : List (LChar × Value)) (k : LChar)
    (h : lookupKey k ps = none) :
    objIndexC ps k = (Value.undef, ps) ∧
    elseFires (objIndexC ps k).1 = true ∧
    getInternalIntC (objIndexC ps k).1 = .error () ∧
    objIndexNC ps k = (Value.undef, ps ++ [(k, Value.undef)]) := by
  refine ⟨?_, ?_, ?_, ?_⟩
  · simp [objIndexC, h]
  · simp [objIndexC, h, elseFires, hasTypeUndef]
  · simp [objIndexC, h, getInternalIntC]
  · simp [objIndexNC, h, lookupKey_append_right k ps Value.undef h]

theorem C10_const_index_absent_key_witness :
    lookupKey ['x'] [(['y'], Value.int 3)] = none ∧
    (objIndexC [(['y'], Value.int 3)] ['x'] = (Value.undef, [(['y'], Value.int 3)]) ∧
     elseFires (objIndexC [(['y'], Value.int 3)] ['x']).1 = true ∧
     getInternalIntC (objIndexC [(['y'], Value.int 3)] ['x']).1 = .error () ∧
     objIndexNC [(['y'], Value.int 3)] ['x'] =
       (Value.undef, [(['y'], Value.int 3)] ++ [(['x'], Value.undef)])) :=
  ⟨rfl, C10_const_index_absent_key [(['y'], Value.int 3)] ['x'] rfl⟩

/-- C2, counterexample: on an empty document the read
`doc["x"].Or(7).GetAs<int>()` does yield `7`, but it does not leave the
document unchanged: the non-const `operator[]` lookup default-inserts an
`Undefined`-valued entry for `"x"`, so the claim's "no key inserted" part
is false. -/
theorem C2_cex_lookup_inserts_key :
    (getInternalIntOr (jsonIndexNC freshDoc ['x']).1 (Value.int 7)).1 = .ok 7 ∧
    (jsonIndexNC freshDoc ['x']).2.root = some [(['x'], Value.undef)] ∧
    ¬ (jsonIndexNC freshDoc ['x']).2.root = freshDoc.root := by
  refine ⟨rfl, rfl, fun h => ?_⟩
  simp [jsonIndexNC, freshDoc, lookupKey] at h

/-- C2, amended: the defaulted (`Or`) read itself never writes to the slot
— `Get_Internal` with a default performs no assignment — and with the
default `7` it returns `7` for an `Undefined` slot and `5` for a slot
holding `5`; but the non-const indexing step that binds the slot
default-inserts an `Undefined`-valued entry when the key is absent, so the
document does gain the key (with an `Undefined` value). -/
theorem C2_amended_defaulted_read (d : JDoc) (k : LChar)
    (h : lookupKey k (d.root.getD []) = none) :
    (∀ slot dflt, (getInternalIntOr slot dflt).2 = slot) ∧
    (∀ m : Int, (getInternalIntOr Value.undef (Value.int m)).1 = .ok m) ∧
    (∀ n m : Int, (getInternalIntOr (Value.int n) (Value.int m)).1 = .ok n) ∧
    (jsonIndexNC d k).1 = Value.undef ∧
    (jsonIndexNC d k).2.root = some (d.root.getD [] ++ [(k, Value.undef)]) := by
  refine ⟨fun slot dflt => rfl, fun m => rfl, fun n m => rfl, ?_, ?_⟩
  · simp [jsonIndexNC, h, lookupKey_append_right k _ Value.undef h]
  · simp [jsonIndexNC, h]

theorem C2_amended_defaulted_read_witness :
    lookupKey ['x'] (freshDoc.root.getD []) = none ∧
    ((∀ slot dflt, (getInternalIntOr slot dflt).2 = slot) ∧
     (∀ m : Int, (getInternalIntOr Value.undef (Value.int m)).1 = .ok m) ∧
     (∀ n m : Int, (getInternalIntOr (Value.int n) (Value.int m)).1 = .ok n) ∧
     (jsonIndexNC freshDoc ['x']).1 = Value.undef ∧
     (jsonIndexNC freshDoc ['x']).2.root =
       some (freshDoc.root.getD [] ++ [(['x'], Value.undef)])) :=
  ⟨rfl, C2_amended_defaulted_read freshDoc ['x'] rfl⟩

/-- C8, counterexample: the escape sequences are not "stored literally in
the token value": tokenizing `"a\nb"` yields the token value `anb` — the
backslash is dropped, only the escaped character survives — not the
literal four characters `a\nb`. -/
theorem C8_cex_backslash_not_stored :
    (tokenizeAt ('"' :: ['a', '\\', 'n', 'b', '"'])).val = ['a', 'n', 'b'] ∧
    ¬ (tokenizeAt ('"' :: ['a', '\\', 'n', 'b', '"'])).val = ['a', '\\', 'n', 'b'] := by
  exact ⟨rfl, by decide⟩

/-- C8, amended: each backslash in a string token unconditionally consumes
the character after it verbatim into the token value with no interpretation
of escape sequences (`\n`, `\uXXXX`, ... are not decoded), but the
backslash itself is dropped: only the escaped character is stored.
Tokenizing a body in which every character is backslash-escaped yields
exactly those characters. -/
theorem C8_amended_escape_consumes_verbatim (cs rest : LChar) :
    scanStringBody ((cs.flatMap fun c => ['\\', c]) ++ '"' :: rest) =
      (cs, 2 * cs.length + 1) := by
  induction cs with
  | nil =>
    simp only [List.flatMap_nil, List.nil_append]
    rw [scanStringBody.eq_def]
    simp +decide
  | cons c cs ih =>
    simp only [List.flatMap_cons, List.cons_append, List.append_assoc, List.nil_append] at ih ⊢
    rw [scanStringBody.eq_def]
    simp +decide [ih]
    ring

/-- C4, counterexample: a number token such as `1E5` is not parsed as a
float: the `IsFloat` test looks only for `'.'` and lowercase `'e'`
(`Value.find('.') != npos || Value.find('e') != npos`), so `1E5` takes the
integer path, and `std::stoll` reads the prefix before `'E'`, yielding the
integer `1`. -/
theorem C4_cex_uppercase_exponent_not_float :
    isFloatTokVal ['1', 'E', '5'] = false ∧
    (∃ d, jsonParse freshDoc "\x7b\"a\": 1E5\x7d".toList = .done d ∧
      d.root = some [(['a'], Value.int 1)] ∧ d.err = none) :=
  ⟨rfl, ⟨_, rfl, rfl, rfl⟩⟩

/-- C4, amended: a number token is classified as floating exactly when its
text contains `'.'` or a lowercase `'e'` — an uppercase `'E'` does not
trigger the float path — and otherwise it is converted as a 64-bit integer
by `std::stoll`, which reads the digit prefix, so `1E5` converts to the
integer `1`. -/
theorem C4_amended_float_classification :
    (∀ s q, numberConvert s = some (Value.float q) →
      (s.contains '.' || s.contains 'e') = true) ∧
    (∀ s, (s.contains '.' || s.contains 'e') = false →
      numberConvert s = (stollModel s).map Value.int) ∧
    stollModel ['1', 'E', '5'] = some 1 := by
  refine ⟨fun s q h => ?_, fun s h => ?_, by decide⟩
  · by_contra hc
    rw [numberConvert, isFloatTokVal, if_neg (by simp_all)] at h
    cases hs : stollModel s <;> simp [hs] at h
  · rw [numberConvert, isFloatTokVal, if_neg (by simp_all)]

theorem C4_amended_float_classification_witness :
    ((['1', 'E', '5'].contains '.' || ['1', 'E', '5'].contains 'e') = false) ∧
    numberConvert ['1', 'E', '5'] = (stollModel ['1', 'E', '5']).map Value.int :=
  ⟨by decide, C4_amended_float_classification.2.1 ['1', 'E', '5'] (by decide)⟩

/-- C3: parsing `{"a": --1}` — the lax tokenizer accepts `--1` as one
number token, and its text is not convertible — does not record a parse
error: the `std::invalid_argument` raised by `std::stoll` propagates
uncaught out of `Parse` (modelled as the `.thrown` outcome), with
`HasError()` still false and `RootObject` untouched.  This contradicts the
claim (and the library's own error-handling design of routing every
failure through the latched error slot). -/
theorem C3_conversion_exception_escapes :
    ∃ d, jsonParse freshDoc "\x7b\"a\": --1\x7d".toList = .thrown d ∧
      d.err = none ∧ jsonHasError d = false ∧ d.root = freshDoc.root :=
  ⟨_, rfl, rfl, rfl, rfl⟩

/-! ## State-step lemmas for `peekSt`/`consumeSt` -/

theorem peekSt_input (st : PSt) : (peekSt st).input = st.input := by
  unfold peekSt throwErr
  dsimp only
  split_ifs <;> rfl

theorem peekSt_pos (st : PSt) : (peekSt st).pos = st.pos := by
  unfold peekSt throwErr
  dsimp only
  split_ifs <;> rfl

theorem peekSt_cur (st : PSt) : (peekSt st).cur = (nextToken st.input st.pos).1 := by
  unfold peekSt throwErr
  dsimp only
  split_ifs <;> rfl

theorem consumeSt_input (st : PSt) : (consumeSt st).input = st.input := by
  unfold consumeSt throwErr
  rcases nextToken st.input st.pos with ⟨t, p⟩
  dsimp only
  split_ifs <;> rfl

theorem consumeSt_pos (st : PSt) :
    (consumeSt st).pos = (nextToken st.input st.pos).2 := by
  unfold consumeSt throwErr
  rcases nextToken st.input st.pos with ⟨t, p⟩
  dsimp only
  split_ifs <;> rfl

theorem consumeSt_cur (st : PSt) :
    (consumeSt st).cur = (nextToken st.input st.pos).1 := by
  unfold consumeSt throwErr
  rcases nextToken st.input st.pos with ⟨t, p⟩
  dsimp only
  split_ifs <;> rfl

theorem peekSt_err_some (st : PSt) (e : LChar) (h : st.err = some e) :
    (peekSt st).err = some e := by
  unfold peekSt throwErr
  dsimp only
  split_ifs with h1 h2 <;> simp_all

theorem consumeSt_err_some (st : PSt) (e : LChar) (h : st.err = some e) :
    (consumeSt st).err = some e := by
  unfold consumeSt throwErr
  rcases nextToken st.input st.pos with ⟨t, p⟩
  dsimp only
  split_ifs with h1 h2 <;> simp_all

theorem peekSt_err_valid (st : PSt)
    (h : (nextToken st.input st.pos).1.type ≠ .Invalid) :
    (peekSt st).err = st.err := by
  unfold peekSt
  dsimp only
  rw [if_neg h]

theorem consumeSt_err_valid (st : PSt)
    (h : (nextToken st.input st.pos).1.type ≠ .Invalid) :
    (consumeSt st).err = st.err := by
  unfold consumeSt
  rcases hn : nextToken st.input st.pos with ⟨t, p⟩
  rw [hn] at h
  dsimp only at h ⊢
  rw [if_neg h]

/-- `consumeSt` never reads the incoming `CurrentToken`. -/
theorem consumeSt_cur_irrel (i : LChar) (p : Nat) (c c' : JsonToken)
    (e : Option LChar) : consumeSt ⟨i, p, c, e⟩ = consumeSt ⟨i, p, c', e⟩ := by
  simp [consumeSt, throwErr]

/-- `ParseObject` begins with `Consume`, so its behaviour does not depend
on the `CurrentToken` left over from before the call. -/
theorem parseObject_cur_irrel (f : Nat) (i : LChar) (p : Nat)
    (c c' : JsonToken) (e : Option LChar) :
    parseObject f ⟨i, p, c, e⟩ = parseObject f ⟨i, p, c', e⟩ := by
  cases f with
  | zero => rfl
  | succ f =>
    simp only [parseObject]
    rw [consumeSt_cur_irrel i p c c' e]

/-- C6: first error wins — once the error slot holds a message, every later
`ThrowError` leaves it untouched — and re-parsing the same text after a
`Reset` (or from any other starting state) produces the identical error
text, the parse outcome's error being a function of the input alone. -/
theorem C6_first_error_wins_and_reparse_identical :
    (∀ st tok msg e, st.err = some e → (throwErr st tok msg).err = some e) ∧
    (∀ d1 d2 : JDoc, ∀ s : LChar,
      outcomeErr (jsonParse (jsonReset d1 true) s) = outcomeErr (jsonParse d2 s)) := by
  constructor
  · intro st tok msg e h
    simp [throwErr, h]
  · intro d1 d2 s
    unfold jsonParse
    rw [parseObject_cur_irrel (parseFuel s) s 0 (jsonReset d1 true).cur d2.cur none]
    cases parseObject (parseFuel s) ⟨s, 0, d2.cur, none⟩ <;> simp [outcomeErr]

theorem C6_first_error_wins_and_reparse_identical_witness :
    (⟨[], 0, ⟨.Invalid, 0, []⟩, some ['x']⟩ : PSt).err = some ['x'] ∧
    ((throwErr ⟨[], 0, ⟨.Invalid, 0, []⟩, some ['x']⟩ ⟨.Invalid, 0, []⟩ ['m']).err =
      some ['x'] ∧
     outcomeErr (jsonParse (jsonReset freshDoc true) ['\x7b']) =
      outcomeErr (jsonParse freshDoc ['\x7b'])) :=
  ⟨rfl,
   C6_first_error_wins_and_reparse_identical.1 _ _ _ _ rfl,
   C6_first_error_wins_and_reparse_identical.2 freshDoc freshDoc ['\x7b']⟩

/-! ## On an error the parser returns a null tree -/

/-- The object-member loop returns a non-null property list only with a
clean error slot: every error path hands back the null pointer. -/
theorem parseObjLoop_some_err_none :
    ∀ f acc st ps st', parseObjLoop f acc st = .ok (some ps) st' → st'.err = none := by
  intro f
  induction f with
  | zero =>
    intro acc st ps st' h
    exact absurd h (by simp [parseObjLoop])
  | succ f ih =>
    intro acc st ps st' h
    simp only [parseObjLoop] at h
    split at h
    · simp at h
    · split at h
      · simp at h
      · split at h
        · exact absurd h (by simp)
        · exact absurd h (by simp)
        · rename_i v st1 heq
          split at h
          · simp at h
          · rename_i hNoErr
            split at h
            · simp at h
            · split at h
              · rename_i hEnd
                obtain ⟨-, rfl⟩ := (PRes.ok.injEq _ _ _ _).mp h
                have hne : ((nextToken st1.input st1.pos).1.type ≠ JsonTokenType.Invalid) := by
                  rw [← consumeSt_cur st1]
                  rw [hEnd]
                  simp
                rw [consumeSt_err_valid st1 hne]
                exact Option.not_isSome_iff_eq_none.mp (by simpa [hasErrorSt] using hNoErr)
              · exact ih _ _ _ _ h

/-- The array-element loop returns a non-null value list only with a clean
error slot. -/
theorem parseArrLoop_some_err_none :
    ∀ f acc st xs st', parseArrLoop f acc st = .ok (some xs) st' → st'.err = none := by
  intro f
  induction f with
  | zero =>
    intro acc st xs st' h
    exact absurd h (by simp [parseArrLoop])
  | succ f ih =>
    intro acc st xs st' h
    simp only [parseArrLoop] at h
    split at h
    · exact absurd h (by simp)
    · exact absurd h (by simp)
    · rename_i v st1 heq
      split at h
      · simp at h
      · rename_i hNoErr
        split at h
        · simp at h
        · split at h
          · rename_i hEnd
            obtain ⟨-, rfl⟩ := (PRes.ok.injEq _ _ _ _).mp h
            have hne : ((nextToken st1.input st1.pos).1.type ≠ JsonTokenType.Invalid) := by
              rw [← consumeSt_cur st1]
              rw [hEnd]
              simp
            rw [consumeSt_err_valid st1 hne]
            exact Option.not_isSome_iff_eq_none.mp (by simpa [hasErrorSt] using hNoErr)
          · exact ih _ _ _ _ h

/-- `ParseObject`, entered with a clean error slot, returns a non-null
object only if the error slot is still clean on exit. -/
theorem parseObject_some_err_none (f : Nat) (st : PSt)
    (r : Option (List (LChar × Value))) (st' : PSt) (he : st.err = none)
    (h : parseObject f st = .ok r st') (hr : r.isSome = true) : st'.err = none := by
  obtain ⟨ps, rfl⟩ := Option.isSome_iff_exists.mp hr
  cases f with
  | zero => exact absurd h (by simp [parseObject])
  | succ f =>
    simp only [parseObject] at h
    split at h
    · simp at h
    · rename_i hStart
      split at h
      · rename_i hEnd
        obtain ⟨-, rfl⟩ := (PRes.ok.injEq _ _ _ _).mp h
        have h1ne : ((nextToken st.input st.pos).1.type ≠ JsonTokenType.Invalid) := by
          rw [← consumeSt_cur st]
          intro hc
          exact hStart (by rw [hc]; simp)
        have herr1 : (consumeSt st).err = none := by
          rw [consumeSt_err_valid st h1ne, he]
        have h2ne :
            ((nextToken (consumeSt st).input (consumeSt st).pos).1.type ≠
              JsonTokenType.Invalid) := by
          rw [← peekSt_cur (consumeSt st)]
          rw [hEnd]
          simp
        have herr2 : (peekSt (consumeSt st)).err = none := by
          rw [peekSt_err_valid (consumeSt st) h2ne, herr1]
        have h3ne :
            ((nextToken (peekSt (consumeSt st)).input
                (peekSt (consumeSt st)).pos).1.type ≠ JsonTokenType.Invalid) := by
          rw [peekSt_input, peekSt_pos]
          rw [← peekSt_cur (consumeSt st)] at h2ne ⊢
          exact h2ne
        rw [consumeSt_err_valid _ h3ne, herr2]
      · exact parseObjLoop_some_err_none _ _ _ _ _ h

/-- C5, counterexample: a parse that errors partway does not leave a
best-effort partial tree: parsing `{"a": 1, "b": }` records an error and
leaves `RootObject` null — the already-parsed member `"a"` is discarded,
not kept. -/
theorem C5_cex_partial_tree_discarded :
    ∃ d, jsonParse freshDoc "\x7b\"a\": 1, \"b\": \x7d".toList = .done d ∧
      jsonHasError d = true ∧ d.root = none :=
  ⟨_, rfl, rfl, rfl⟩

/-- C5, amended: on every input on which parsing reports an error, `Parse`
leaves the document's root null (`ParseObject`'s error paths all `return
{}`), discarding everything parsed before the error; the root is a
non-null object only when the parse finished with no error recorded. -/
theorem C5_amended_error_leaves_null_root (s : LChar) (d d' : JDoc)
    (h : jsonParse d s = .done d') (he : d'.err.isSome = true) : d'.root = none := by
  unfold jsonParse at h
  rcases hp : parseObject (parseFuel s) ⟨s, 0, d.cur, none⟩ with ⟨r, st⟩ | st | -
  · rw [hp] at h
    simp only [ParseOutcome.done.injEq] at h
    subst h
    by_contra hroot
    rcases r with - | ps
    · exact hroot rfl
    · rw [parseObject_some_err_none (parseFuel s) _ (some ps) st rfl hp rfl] at he
      simp at he
  · rw [hp] at h
    exact absurd h (by simp)
  · rw [hp] at h
    exact absurd h (by simp)

theorem C5_amended_error_leaves_null_root_witness :
    ∃ d', jsonParse freshDoc "\x7b\"a\": \x7d".toList = .done d' ∧
      d'.err.isSome = true ∧ d'.root = none :=
  ⟨_, rfl, rfl, C5_amended_error_leaves_null_root "\x7b\"a\": \x7d".toList freshDoc _ rfl rfl⟩

/-- C1, counterexample: the round-trip fails on trees the claim admits.
(1) A string containing a backslash (no quote, no control characters, so
within the claim's restriction): serializing `{"k": "a\b"}` and re-parsing
yields the string `ab` — the serializer writes the backslash raw and the
tokenizer consumes it as an escape — so the trees are not equivalent.
(2) A member holding `Undefined` serializes to `{"k": }`, which re-parses
to an error and a null tree.  (3) A float leaf `2⁻³⁰` (an exact `double`)
serializes under `%f` to `0.000000` and re-parses as `0`. -/
theorem C1_cex_round_trip_fails :
    (claimStrOK ['a', '\\', 'b'] = true ∧ claimStrOK ['k'] = true) ∧
    (serializeObject [(['k'], Value.str ['a', '\\', 'b'])] false 0 =
      "\x7b\"k\": \"a\\b\"\x7d".toList ∧
     (∃ d, jsonParse freshDoc "\x7b\"k\": \"a\\b\"\x7d".toList = .done d ∧ d.err = none ∧
        d.root = some [(['k'], Value.str ['a', 'b'])]) ∧
     treeEquiv (Value.obj [(['k'], Value.str ['a', '\\', 'b'])])
       (Value.obj [(['k'], Value.str ['a', 'b'])]) = false) ∧
    (serializeObject [(['k'], Value.undef)] false 0 = "\x7b\"k\": \x7d".toList ∧
     (∃ d, jsonParse freshDoc "\x7b\"k\": \x7d".toList = .done d ∧
        jsonHasError d = true ∧ d.root = none)) ∧
    (serializeObject [(['k'], Value.float (mkRat 1 (2 ^ 30)))] false 0 =
      "\x7b\"k\": 0.000000\x7d".toList ∧
     (∃ d, jsonParse freshDoc "\x7b\"k\": 0.000000\x7d".toList = .done d ∧ d.err = none ∧
        d.root = some [(['k'], Value.float 0)]) ∧
     ¬ (mkRat 1 (2 ^ 30) = 0)) := by
  refine ⟨⟨by decide, by decide⟩, ⟨?_, ⟨_, rfl, rfl, rfl⟩, ?_⟩,
    ⟨?_, ⟨_, rfl, rfl, rfl⟩⟩, ⟨?_, ⟨_, rfl, rfl, rfl⟩, ?_⟩⟩
  · simp [serializeObject, serObjItems, serializeValue, isContainer]
  · simp [treeEquiv, objSubEquiv, keyMatch, keysCovered, lookupKey]
  · simp [serializeObject, serObjItems, serializeValue, isContainer]
  · simp only [serializeObject, serObjItems, serializeValue, isContainer]
    rfl
  · intro h
    have : (mkRat 1 (2 ^ 30)).num = 1 := rfl
    rw [h] at this
    simp at this

/-! ## Decimal rendering and `strtoll`, related -/

theorem digitsToNat_append_digit (l : LChar) (c : Char) :
    digitsToNat (l ++ [c]) = digitsToNat l * 10 + (c.toNat - '0'.toNat) := by
  simp [digitsToNat, List.foldl_append]

theorem digitChar10_sub (d : Nat) (h : d < 10) :
    (digitChar10 d).toNat - '0'.toNat = d := by
  interval_cases d <;> decide

theorem digitChar10_isDigit (d : Nat) (h : d < 10) :
    isDigitC (digitChar10 d) = true := by
  interval_cases d <;> decide

theorem natToDecAux_digits :
    ∀ fuel n, ∀ c ∈ natToDecAux fuel n, isDigitC c = true := by
  intro fuel
  induction fuel with
  | zero => intro n c hc; simp [natToDecAux] at hc
  | succ f ih =>
    intro n c hc
    cases n with
    | zero => simp [natToDecAux] at hc
    | succ m =>
      simp only [natToDecAux, List.mem_append, List.mem_singleton] at hc
      rcases hc with hc | rfl
      · exact ih _ c hc
      · exact digitChar10_isDigit _ (Nat.mod_lt _ (by omega))

theorem digitsToNat_natToDecAux :
    ∀ fuel n, n ≤ fuel → digitsToNat (natToDecAux fuel n) = n := by
  intro fuel
  induction fuel with
  | zero =>
    intro n hn
    interval_cases n
    simp [natToDecAux, digitsToNat]
  | succ f ih =>
    intro n hn
    cases n with
    | zero => simp [natToDecAux, digitsToNat]
    | succ m =>
      rw [natToDecAux, digitsToNat_append_digit,
        ih ((m + 1) / 10) (by omega),
        digitChar10_sub _ (Nat.mod_lt _ (by omega))]
      omega

theorem natToDec_digits (n : Nat) : ∀ c ∈ natToDec n, isDigitC c = true := by
  unfold natToDec
  split
  · intro c hc
    simp only [List.mem_singleton] at hc
    subst hc
    decide
  · exact natToDecAux_digits n n

theorem natToDec_ne_nil (n : Nat) : natToDec n ≠ [] := by
  unfold natToDec
  split
  · simp
  · rename_i hn
    cases n with
    | zero => exact absurd rfl hn
    | succ m => rw [natToDecAux]; simp

theorem digitsToNat_natToDec (n : Nat) : digitsToNat (natToDec n) = n := by
  unfold natToDec
  split
  · rename_i h; subst h; decide
  · exact digitsToNat_natToDecAux n n le_rfl

theorem num_not_space (c : Char) (h : isValidNumberChar c = true) :
    isSpaceC c = false := by
  by_contra hs
  rw [Bool.not_eq_false] at hs
  simp only [isSpaceC, Bool.or_eq_true, decide_eq_true_eq] at hs
  rcases hs with ((((h1 | h1) | h1) | h1) | h1) | h1 <;> subst h1 <;>
    exact absurd h (by decide)

theorem isDigitC_num (c : Char) (h : isDigitC c = true) :
    isValidNumberChar c = true := by
  simp [isValidNumberChar, h]

theorem natToDec_head (n : Nat) :
    ∃ c cs, natToDec n = c :: cs ∧ isDigitC c = true := by
  rcases hd : natToDec n with - | ⟨c, cs⟩
  · exact absurd hd (natToDec_ne_nil n)
  · exact ⟨c, cs, rfl, natToDec_digits n c (hd ▸ List.mem_cons_self c cs)⟩

theorem takeWhile_eq_self_of_all {p : Char → Bool} :
    ∀ l : LChar, (∀ c ∈ l, p c = true) → l.takeWhile p = l := by
  intro l h
  induction l with
  | nil => rfl
  | cons c cs ih =>
    rw [List.takeWhile_cons, if_pos (h c (List.mem_cons_self c cs))]
    rw [ih fun x hx => h x (List.mem_cons_of_mem c hx)]

/-- `std::stoll` inverts the serializer's decimal rendering for every
`int64_t`. -/
theorem stollModel_intToDec (n : Int) (h1 : -(2 ^ 63) ≤ n) (h2 : n ≤ 2 ^ 63 - 1) :
    stollModel (intToDec n) = some n := by
  unfold intToDec stollModel
  by_cases hn : n < 0
  · rw [if_pos hn]
    obtain ⟨c, cs, hd, hdig⟩ := natToDec_head n.natAbs
    rw [hd]
    rw [show countLeadingWs ('-' :: c :: cs) = 0 from by
      rw [countLeadingWs]; rw [if_neg (by decide)]]
    simp only [List.drop_zero]
    have hc1 : (('-' :: c :: cs) : LChar).head? = some '-' := rfl
    rw [if_pos hc1]
    simp only [List.tail_cons]
    have hall : ∀ x ∈ c :: cs, isDigitC x = true := by
      rw [← hd]; exact natToDec_digits n.natAbs
    rw [takeWhile_eq_self_of_all _ hall]
    rw [if_neg (List.cons_ne_nil c cs)]
    have hval : digitsToNat (c :: cs) = n.natAbs := by
      rw [← hd]; exact digitsToNat_natToDec n.natAbs
    rw [hval]
    rw [if_neg (by omega)]
    congr 1
    omega
  · rw [if_neg hn]
    obtain ⟨c, cs, hd, hdig⟩ := natToDec_head n.toNat
    rw [hd]
    have hcs : isSpaceC c = false := num_not_space c (isDigitC_num c hdig)
    rw [show countLeadingWs (c :: cs) = 0 from by
      rw [countLeadingWs]; rw [if_neg (by simp [hcs])]]
    simp only [List.drop_zero]
    have hcm : ¬ c = '-' := fun hc => by rw [hc] at hdig; exact absurd hdig (by decide)
    have hcp : ¬ c = '+' := fun hc => by rw [hc] at hdig; exact absurd hdig (by decide)
    have hc1 : ¬ (((c :: cs) : LChar).head? = some '-') := by simp [hcm]
    rw [if_neg hc1]
    have hc2 : ¬ (((c :: cs) : LChar).head? = some '+') := by simp [hcp]
    rw [if_neg hc2]
    have hall : ∀ x ∈ c :: cs, isDigitC x = true := by
      rw [← hd]; exact natToDec_digits n.toNat
    rw [takeWhile_eq_self_of_all _ hall]
    rw [if_neg (List.cons_ne_nil c cs)]
    have hval : digitsToNat (c :: cs) = n.toNat := by
      rw [← hd]; exact digitsToNat_natToDec n.toNat
    rw [hval]
    rw [if_neg (by omega)]
    congr 1
    omega

/-! ## Token-level evaluation lemmas -/

theorem countLeadingWs_replicate (w : Nat) (s : LChar) :
    countLeadingWs (List.replicate w ' ' ++ s) = w + countLeadingWs s := by
  induction w with
  | zero => simp
  | succ w ih =>
    rw [List.replicate_succ, List.cons_append, countLeadingWs, if_pos (by decide)]
    omega

theorem countLeadingWs_zero (c : Char) (s : LChar) (h : isSpaceC c = false) :
    countLeadingWs (c :: s) = 0 := by
  rw [countLeadingWs, if_neg (by simp [h])]

theorem drop_replicate_append (w : Nat) (s : LChar) :
    (List.replicate w ' ' ++ s).drop w = s := by
  induction w with
  | zero => simp
  | succ w ih => rw [List.replicate_succ, List.cons_append, List.drop_succ_cons, ih]

/-- Evaluating `NextToken` when the suffix at the position is known. -/
theorem nextToken_eval (input : LChar) (pos w : Nat) (s2 : LChar)
    (h : input.drop pos = List.replicate w ' ' ++ s2)
    (h2 : countLeadingWs s2 = 0) :
    nextToken input pos =
      (⟨(tokenizeAt s2).type, pos + w, (tokenizeAt s2).val⟩,
        pos + w + (tokenizeAt s2).adv) := by
  unfold nextToken
  rw [h]
  dsimp only
  rw [countLeadingWs_replicate, h2, Nat.add_zero, drop_replicate_append]

theorem nextToken_tok (input : LChar) (pos w : Nat) (s2 : LChar)
    (ty : JsonTokenType) (val : LChar) (adv : Nat)
    (h : input.drop pos = List.replicate w ' ' ++ s2)
    (ht : tokenizeAt s2 = ⟨ty, val, adv⟩)
    (h2 : countLeadingWs s2 = 0) :
    nextToken input pos = (⟨ty, pos + w, val⟩, pos + w + adv) := by
  rw [nextToken_eval input pos w s2 h h2, ht]

theorem tokenizeAt_lbrace (x : LChar) :
    tokenizeAt ('\x7b' :: x) = ⟨.ObjectStart, ['\x7b'], 1⟩ := by
  rw [tokenizeAt.eq_def]; simp +decide

theorem tokenizeAt_rbrace (x : LChar) :
    tokenizeAt ('\x7d' :: x) = ⟨.ObjectEnd, ['\x7d'], 1⟩ := by
  rw [tokenizeAt.eq_def]; simp +decide

theorem tokenizeAt_lbrack (x : LChar) :
    tokenizeAt ('[' :: x) = ⟨.ArrayStart, ['['], 1⟩ := by
  rw [tokenizeAt.eq_def]; simp +decide

theorem tokenizeAt_rbrack (x : LChar) :
    tokenizeAt (']' :: x) = ⟨.ArrayEnd, [']'], 1⟩ := by
  rw [tokenizeAt.eq_def]; simp +decide

theorem tokenizeAt_comma (x : LChar) :
    tokenizeAt (',' :: x) = ⟨.Comma, [','], 1⟩ := by
  rw [tokenizeAt.eq_def]; simp +decide

theorem tokenizeAt_colon (x : LChar) :
    tokenizeAt (':' :: x) = ⟨.Colon, [':'], 1⟩ := by
  rw [tokenizeAt.eq_def]; simp +decide

theorem tokenizeAt_null (x : LChar) :
    tokenizeAt ('n' :: 'u' :: 'l' :: 'l' :: x) =
      ⟨.Null, ['n', 'u', 'l', 'l'], 4⟩ := by
  rw [tokenizeAt.eq_def]; simp +decide

theorem tokenizeAt_true (x : LChar) :
    tokenizeAt ('t' :: 'r' :: 'u' :: 'e' :: x) =
      ⟨.Boolean, ['t', 'r', 'u', 'e'], 4⟩ := by
  rw [tokenizeAt.eq_def]; simp +decide

theorem tokenizeAt_false (x : LChar) :
    tokenizeAt ('f' :: 'a' :: 'l' :: 's' :: 'e' :: x) =
      ⟨.Boolean, ['f', 'a', 'l', 's', 'e'], 5⟩ := by
  rw [tokenizeAt.eq_def]; simp +decide

theorem strPlain_cons (c : Char) (s : LChar) (h : strPlain (c :: s) = true) :
    ¬ c = '"' ∧ ¬ c = '\\' ∧ 32 ≤ c.toNat ∧ strPlain s = true := by
  simp only [strPlain, List.all_cons, Bool.and_eq_true, decide_eq_true_eq] at h
  exact ⟨h.1.1.1, h.1.1.2, h.1.2, h.2⟩

theorem scanStringBody_plain (s : LChar) (hp : strPlain s = true) (x : LChar) :
    scanStringBody (s ++ '"' :: x) = (s, s.length + 1) := by
  induction s with
  | nil => rw [List.nil_append, scanStringBody.eq_def]; simp +decide
  | cons c s ih =>
    obtain ⟨hq, hb, h32, hp'⟩ := strPlain_cons c s hp
    have h0 : ¬ c = '\x00' := fun hc => by rw [hc] at h32; exact absurd h32 (by decide)
    rw [List.cons_append, scanStringBody.eq_def]
    simp only [if_neg h0, if_neg hb, if_neg hq, ih hp', List.length_cons]

theorem tokenizeAt_string (s : LChar) (hp : strPlain s = true) (x : LChar) :
    tokenizeAt ('"' :: (s ++ '"' :: x)) = ⟨.String, s, s.length + 2⟩ := by
  rw [tokenizeAt.eq_def]
  simp +decide [scanStringBody_plain s hp x]

theorem takeNumberChars_all (ds : LChar) (x : LChar)
    (hds : ∀ c ∈ ds, isValidNumberChar c = true)
    (hx : ∀ c cs, x = c :: cs → isValidNumberChar c = false) :
    takeNumberChars (ds ++ x) = ds := by
  induction ds with
  | nil =>
    rw [List.nil_append]
    cases x with
    | nil => rfl
    | cons c cs =>
      rw [takeNumberChars, if_neg (by simp [hx c cs rfl])]
  | cons d ds ih =>
    rw [List.cons_append, takeNumberChars,
      if_pos (by simp [hds d (List.mem_cons_self d ds)])]
    rw [ih fun c hc => hds c (List.mem_cons_of_mem d hc)]

theorem tokenizeAt_number (d : Char) (ds x : LChar)
    (hds : ∀ c ∈ d :: ds, isValidNumberChar c = true)
    (hx : ∀ c cs, x = c :: cs → isValidNumberChar c = false) :
    tokenizeAt ((d :: ds) ++ x) = ⟨.Number, d :: ds, ds.length + 1⟩ := by
  have hd := hds d (List.mem_cons_self d ds)
  have ne : ∀ c : Char, isValidNumberChar c = false → ¬ d = c :=
    fun c hc he => by rw [he] at hd; rw [hd] at hc; cases hc
  rw [List.cons_append, tokenizeAt.eq_def]
  dsimp only
  rw [if_neg (ne _ (by decide)), if_neg (ne _ (by decide)),
    if_neg (ne _ (by decide)), if_neg (ne _ (by decide)),
    if_neg (ne _ (by decide)), if_neg (ne _ (by decide)),
    if_neg (ne _ (by decide)), if_neg (ne _ (by decide))]
  rw [if_neg (by simp [ne 't' (by decide), ne 'f' (by decide)])]
  rw [if_pos hd]
  have : takeNumberChars (d :: (ds ++ x)) = d :: ds := by
    rw [← List.cons_append]
    exact takeNumberChars_all (d :: ds) x hds hx
  simp [this]

/-! ## Compact-mode serializer shapes -/

theorem serializeObject_false (ps : List (LChar × Value)) (d : Nat) :
    serializeObject ps false d =
      '\x7b' :: serObjItems ps false d true ++ ['\x7d'] := by
  rw [serializeObject]
  simp

theorem serializeArray_false (xs : List Value) (d : Nat) :
    serializeArray xs false d = '[' :: serArrItems xs false d true ++ [']'] := by
  rw [serializeArray]
  simp

theorem serObjItems_nil (p : Bool) (d : Nat) (first : Bool) :
    serObjItems [] p d first = [] := by
  rw [serObjItems]

theorem serArrItems_nil (p : Bool) (d : Nat) (first : Bool) :
    serArrItems [] p d first = [] := by
  rw [serArrItems]

theorem serObjItems_true_cons (k : LChar) (v : Value)
    (es : List (LChar × Value)) (d : Nat) :
    serObjItems ((k, v) :: es) false d true =
      '"' :: k ++ '"' :: ':' :: ' ' ::
        (serializeValue v false d ++ serObjItems es false d false) := by
  rw [serObjItems]
  simp

theorem serObjItems_false_cons (es : List (LChar × Value)) (d : Nat)
    (h : es ≠ []) :
    serObjItems es false d false = ',' :: serObjItems es false d true := by
  cases es with
  | nil => exact absurd rfl h
  | cons e es =>
    obtain ⟨k, v⟩ := e
    rw [serObjItems, serObjItems]
    simp

theorem serArrItems_true_cons (x : Value) (xs : List Value) (d : Nat) :
    serArrItems (x :: xs) false d true =
      serializeValue x false d ++ serArrItems xs false d false := by
  rw [serArrItems]
  simp

theorem serArrItems_false_cons (xs : List Value) (d : Nat) (h : xs ≠ []) :
    serArrItems xs false d false = ',' :: serArrItems xs false d true := by
  cases xs with
  | nil => exact absurd rfl h
  | cons x xs =>
    rw [serArrItems, serArrItems]
    simp

theorem sv_null (p : Bool) (d : Nat) :
    serializeValue .null p d = ['n', 'u', 'l', 'l'] := by
  rw [serializeValue]

theorem sv_bool (b : Bool) (p : Bool) (d : Nat) :
    serializeValue (.bool b) p d =
      if b then ['t', 'r', 'u', 'e'] else ['f', 'a', 'l', 's', 'e'] := by
  rw [serializeValue]

theorem sv_int (n : Int) (p : Bool) (d : Nat) :
    serializeValue (.int n) p d = intToDec n := by
  rw [serializeValue]

theorem sv_str (s : LChar) (p : Bool) (d : Nat) :
    serializeValue (.str s) p d = '"' :: s ++ ['"'] := by
  rw [serializeValue]

theorem sv_arr (xs : List Value) (p : Bool) (d : Nat) :
    serializeValue (.arr xs) p d = serializeArray xs p (d + 1) := by
  rw [serializeValue]

theorem sv_obj (ps : List (LChar × Value)) (p : Bool) (d : Nat) :
    serializeValue (.obj ps) p d = serializeObject ps p (d + 1) := by
  rw [serializeValue]

/-! ## State-shape lemmas for known tokens -/

theorem peek_state (st : PSt) (t : JsonToken) (p2 : Nat)
    (hnt : nextToken st.input st.pos = (t, p2)) (hv : t.type ≠ .Invalid) :
    peekSt st = ⟨st.input, st.pos, t, st.err⟩ := by
  unfold peekSt
  rw [hnt]
  dsimp only
  rw [if_neg hv]

theorem consume_state (st : PSt) (t : JsonToken) (p2 : Nat)
    (hnt : nextToken st.input st.pos = (t, p2)) (hv : t.type ≠ .Invalid) :
    consumeSt st = ⟨st.input, p2, t, st.err⟩ := by
  unfold consumeSt
  rw [hnt]
  dsimp only
  rw [if_neg hv]

/-! ## Helpers for the round-trip induction -/

theorem drop_shift (input : LChar) (pos k : Nat) (s : LChar)
    (h : input.drop pos = s) : input.drop (pos + k) = s.drop k := by
  have h2 : input.drop (pos + k) = (input.drop pos).drop k := by
    rw [List.drop_drop, Nat.add_comm]
  rw [h2, h]

theorem lookupKey_append_none (k : LChar) (a b : List (LChar × Value))
    (h : lookupKey k a = none) : lookupKey k (a ++ b) = lookupKey k b := by
  induction a with
  | nil => rfl
  | cons p rest ih =>
    obtain ⟨k2, v⟩ := p
    by_cases hk : k = k2
    · rw [lookupKey, if_pos hk] at h; cases h
    · rw [lookupKey, if_neg hk] at h
      rw [List.cons_append, lookupKey, if_neg hk]
      exact ih h

theorem lookupKey_none_mem (k : LChar) (l : List (LChar × Value))
    (h : lookupKey k l = none) : ∀ p ∈ l, ¬ p.1 = k := by
  induction l with
  | nil => intro p hp; cases hp
  | cons q rest ih =>
    obtain ⟨k2, v⟩ := q
    by_cases hk : k = k2
    · rw [lookupKey, if_pos hk] at h; cases h
    · rw [lookupKey, if_neg hk] at h
      intro p hp
      rcases List.mem_cons.mp hp with rfl | hp2
      · exact fun he => hk he.symm
      · exact ih h p hp2

theorem wfProps_cons (k : LChar) (v : Value) (rest : List (LChar × Value))
    (h : wfProps ((k, v) :: rest) = true) :
    strPlain k = true ∧ wfV v = true ∧ lookupKey k rest = none ∧
      wfProps rest = true := by
  rw [wfProps] at h
  simp only [Bool.and_eq_true, Option.isNone_iff_eq_none] at h
  exact ⟨h.1.1.1, h.1.1.2, h.1.2, h.2⟩

theorem wfArr_cons (x : Value) (xs : List Value) (h : wfArr (x :: xs) = true) :
    wfV x = true ∧ wfArr xs = true := by
  rw [wfArr] at h
  exact Bool.and_eq_true .. |>.mp h

theorem wfV_int_bounds (n : Int) (h : wfV (.int n) = true) :
    -(2 ^ 63) ≤ n ∧ n ≤ 2 ^ 63 - 1 := by
  rw [wfV] at h
  simp only [Bool.and_eq_true, decide_eq_true_eq] at h
  exact h

theorem wfV_str_plain (s : LChar) (h : wfV (.str s) = true) :
    strPlain s = true := by
  rw [wfV] at h; exact h

theorem wfV_arr_wf (xs : List Value) (h : wfV (.arr xs) = true) :
    wfArr xs = true := by
  rw [wfV] at h; exact h

theorem wfV_obj_wf (ps : List (LChar × Value)) (h : wfV (.obj ps) = true) :
    wfProps ps = true := by
  rw [wfV] at h; exact h

theorem intToDec_ne_nil (n : Int) : intToDec n ≠ [] := by
  unfold intToDec
  split
  · simp
  · exact natToDec_ne_nil _

theorem intToDec_numchars (n : Int) :
    ∀ c ∈ intToDec n, isValidNumberChar c = true := by
  unfold intToDec
  split
  · intro c hc
    rcases List.mem_cons.mp hc with rfl | hc2
    · decide
    · exact isDigitC_num c (natToDec_digits _ c hc2)
  · exact fun c hc => isDigitC_num c (natToDec_digits _ c hc)

theorem intToDec_digit_or_minus (n : Int) :
    ∀ c ∈ intToDec n, isDigitC c = true ∨ c = '-' := by
  unfold intToDec
  split
  · intro c hc
    rcases List.mem_cons.mp hc with rfl | hc2
    · exact Or.inr rfl
    · exact Or.inl (natToDec_digits _ c hc2)
  · exact fun c hc => Or.inl (natToDec_digits _ c hc)

theorem isFloatTokVal_intToDec (n : Int) : isFloatTokVal (intToDec n) = false := by
  have hdot : ¬ ('.' ∈ intToDec n) := fun hm => by
    rcases intToDec_digit_or_minus n '.' hm with h | h <;> exact absurd h (by decide)
  have he : ¬ ('e' ∈ intToDec n) := fun hm => by
    rcases intToDec_digit_or_minus n 'e' hm with h | h <;> exact absurd h (by decide)
  simp [isFloatTokVal, List.contains_iff_exists_mem_beq]
  exact ⟨hdot, he⟩

/-- The numeric conversion on a serialized `int64_t` recovers it. -/
theorem numberConvert_intToDec (n : Int) (h1 : -(2 ^ 63) ≤ n)
    (h2 : n ≤ 2 ^ 63 - 1) : numberConvert (intToDec n) = some (.int n) := by
  rw [numberConvert, isFloatTokVal_intToDec, if_neg (by simp),
    stollModel_intToDec n h1 h2]
  rfl

/-! ## `nextToken` on serialized fragments -/

theorem nextToken_null (input : LChar) (pos w : Nat) (rest : LChar)
    (h : input.drop pos =
      List.replicate w ' ' ++ ('n' :: 'u' :: 'l' :: 'l' :: rest)) :
    nextToken input pos = (⟨.Null, pos + w, ['n', 'u', 'l', 'l']⟩, pos + w + 4) :=
  nextToken_tok input pos w _ _ _ _ h (tokenizeAt_null rest)
    (countLeadingWs_zero _ _ (by decide))

theorem nextToken_true (input : LChar) (pos w : Nat) (rest : LChar)
    (h : input.drop pos =
      List.replicate w ' ' ++ ('t' :: 'r' :: 'u' :: 'e' :: rest)) :
    nextToken input pos =
      (⟨.Boolean, pos + w, ['t', 'r', 'u', 'e']⟩, pos + w + 4) :=
  nextToken_tok input pos w _ _ _ _ h (tokenizeAt_true rest)
    (countLeadingWs_zero _ _ (by decide))

theorem nextToken_false (input : LChar) (pos w : Nat) (rest : LChar)
    (h : input.drop pos =
      List.replicate w ' ' ++ ('f' :: 'a' :: 'l' :: 's' :: 'e' :: rest)) :
    nextToken input pos =
      (⟨.Boolean, pos + w, ['f', 'a', 'l', 's', 'e']⟩, pos + w + 5) :=
  nextToken_tok input pos w _ _ _ _ h (tokenizeAt_false rest)
    (countLeadingWs_zero _ _ (by decide))

theorem nextToken_lbrace (input : LChar) (pos w : Nat) (rest : LChar)
    (h : input.drop pos = List.replicate w ' ' ++ ('\x7b' :: rest)) :
    nextToken input pos =
      (⟨.ObjectStart, pos + w, ['\x7b']⟩, pos + w + 1) :=
  nextToken_tok input pos w _ _ _ _ h (tokenizeAt_lbrace rest)
    (countLeadingWs_zero _ _ (by decide))

theorem nextToken_rbrace (input : LChar) (pos w : Nat) (rest : LChar)
    (h : input.drop pos = List.replicate w ' ' ++ ('\x7d' :: rest)) :
    nextToken input pos =
      (⟨.ObjectEnd, pos + w, ['\x7d']⟩, pos + w + 1) :=
  nextToken_tok input pos w _ _ _ _ h (tokenizeAt_rbrace rest)
    (countLeadingWs_zero _ _ (by decide))

theorem nextToken_lbrack (input : LChar) (pos w : Nat) (rest : LChar)
    (h : input.drop pos = List.replicate w ' ' ++ ('[' :: rest)) :
    nextToken input pos = (⟨.ArrayStart, pos + w, ['[']⟩, pos + w + 1) :=
  nextToken_tok input pos w _ _ _ _ h (tokenizeAt_lbrack rest)
    (countLeadingWs_zero _ _ (by decide))

theorem nextToken_rbrack (input : LChar) (pos w : Nat) (rest : LChar)
    (h : input.drop pos = List.replicate w ' ' ++ (']' :: rest)) :
    nextToken input pos = (⟨.ArrayEnd, pos + w, [']']⟩, pos + w + 1) :=
  nextToken_tok input pos w _ _ _ _ h (tokenizeAt_rbrack rest)
    (countLeadingWs_zero _ _ (by decide))

theorem nextToken_comma (input : LChar) (pos w : Nat) (rest : LChar)
    (h : input.drop pos = List.replicate w ' ' ++ (',' :: rest)) :
    nextToken input pos = (⟨.Comma, pos + w, [',']⟩, pos + w + 1) :=
  nextToken_tok input pos w _ _ _ _ h (tokenizeAt_comma rest)
    (countLeadingWs_zero _ _ (by decide))

theorem nextToken_colon (input : LChar) (pos w : Nat) (rest : LChar)
    (h : input.drop pos = List.replicate w ' ' ++ (':' :: rest)) :
    nextToken input pos = (⟨.Colon, pos + w, [':']⟩, pos + w + 1) :=
  nextToken_tok input pos w _ _ _ _ h (tokenizeAt_colon rest)
    (countLeadingWs_zero _ _ (by decide))

theorem nextToken_string (input : LChar) (pos w : Nat) (s rest : LChar)
    (hp : strPlain s = true)
    (h : input.drop pos = List.replicate w ' ' ++ ('"' :: (s ++ '"' :: rest))) :
    nextToken input pos =
      (⟨.String, pos + w, s⟩, pos + w + (s.length + 2)) :=
  nextToken_tok input pos w _ _ _ _ h (tokenizeAt_string s hp rest)
    (countLeadingWs_zero _ _ (by decide))

theorem nextToken_number (input : LChar) (pos w : Nat) (ds rest : LChar)
    (hne : ds ≠ []) (hds : ∀ c ∈ ds, isValidNumberChar c = true)
    (hrest : ∀ c cs, rest = c :: cs → isValidNumberChar c = false)
    (h : input.drop pos = List.replicate w ' ' ++ (ds ++ rest)) :
    nextToken input pos = (⟨.Number, pos + w, ds⟩, pos + w + ds.length) := by
  cases ds with
  | nil => exact absurd rfl hne
  | cons c cs =>
    have := nextToken_tok input pos w _ _ _ _ h
      (tokenizeAt_number c cs rest hds hrest)
      (countLeadingWs_zero _ _
        (num_not_space c (hds c (List.mem_cons_self c cs))))
    simpa using this

theorem nextToken_intToDec (input : LChar) (pos w : Nat) (n : Int)
    (rest : LChar)
    (hrest : ∀ c cs, rest = c :: cs → isValidNumberChar c = false)
    (h : input.drop pos = List.replicate w ' ' ++ (intToDec n ++ rest)) :
    nextToken input pos =
      (⟨.Number, pos + w, intToDec n⟩, pos + w + (intToDec n).length) :=
  nextToken_number input pos w (intToDec n) rest (intToDec_ne_nil n)
    (intToDec_numchars n) hrest h

/-- The first token of a serialized well-formed value is a value-start
token. -/
theorem value_head_tok (v : Value) (hwf : wfV v = true) (input : LChar)
    (pos d : Nat) (rest : LChar)
    (hdrop : input.drop pos = serializeValue v false d ++ rest)
    (hrest : ∀ c cs, rest = c :: cs → isValidNumberChar c = false) :
    ∃ t p2, nextToken input pos = (t, p2) ∧
      (t.type = .ObjectStart ∨ t.type = .ArrayStart ∨ t.type = .String ∨
        t.type = .Number ∨ t.type = .Null ∨ t.type = .Boolean) := by
  cases v with
  | undef => rw [wfV] at hwf; cases hwf
  | float q => rw [wfV] at hwf; cases hwf
  | arrNull => rw [wfV] at hwf; cases hwf
  | objNull => rw [wfV] at hwf; cases hwf
  | null =>
    rw [sv_null] at hdrop
    exact ⟨_, _, nextToken_null input pos 0 rest (by simpa using hdrop),
      by simp⟩
  | bool b =>
    rw [sv_bool] at hdrop
    cases b
    · exact ⟨_, _, nextToken_false input pos 0 rest (by simpa using hdrop),
        by simp⟩
    · exact ⟨_, _, nextToken_true input pos 0 rest (by simpa using hdrop),
        by simp⟩
  | int n =>
    rw [sv_int] at hdrop
    exact ⟨_, _, nextToken_intToDec input pos 0 n rest hrest
      (by simpa using hdrop), by simp⟩
  | str s =>
    rw [sv_str] at hdrop
    refine ⟨_, _, nextToken_string input pos 0 s rest (wfV_str_plain s hwf)
      (by simpa [List.append_assoc] using hdrop), by simp⟩
  | arr xs =>
    rw [sv_arr, serializeArray_false] at hdrop
    exact ⟨_, _, nextToken_lbrack input pos 0 _ (by simpa using hdrop),
      by simp⟩
  | obj ps =>
    rw [sv_obj, serializeObject_false] at hdrop
    exact ⟨_, _, nextToken_lbrace input pos 0 _ (by simpa using hdrop),
      by simp⟩

theorem drop_append_self (l s : LChar) : (l ++ s).drop l.length = s := by
  induction l with
  | nil => rfl
  | cons c l ih => rw [List.cons_append, List.length_cons, List.drop_succ_cons, ih]

theorem drop_append_cons (l : LChar) (c : Char) (s : LChar) :
    (l ++ c :: s).drop (l.length + 1) = s := by
  induction l with
  | nil => rfl
  | cons x l ih =>
    rw [List.cons_append, List.length_cons]
    rw [show l.length + 1 + 1 = (l.length + 1) + 1 from rfl, List.drop_succ_cons, ih]

theorem drop_cons_append_cons (c : Char) (k : LChar) (c2 : Char) (x : LChar) :
    ((c :: (k ++ c2 :: x)) : LChar).drop (k.length + 2) = x := by
  rw [show k.length + 2 = (k.length + 1) + 1 from rfl]
  rw [List.drop_succ_cons, drop_append_cons]


/-! ## Helpers shared by the round-trip induction -/

theorem emplaceEntry_absent (k : LChar) (v : Value) (acc : List (LChar × Value))
    (h : lookupKey k acc = none) : emplaceEntry k v acc = acc ++ [(k, v)] := by
  rw [emplaceEntry, h]
  simp

theorem lookup_push (k : LChar) (v : Value) (acc es : List (LChar × Value))
    (hdisj : ∀ p ∈ (k, v) :: es, lookupKey p.1 acc = none)
    (hknotin : lookupKey k es = none) :
    ∀ p ∈ es, lookupKey p.1 (acc ++ [(k, v)]) = none := by
  intro p hp
  rw [lookupKey_append_none p.1 acc _ (hdisj p (List.mem_cons_of_mem _ hp))]
  have hne := lookupKey_none_mem k es hknotin p hp
  simp [lookupKey, hne]

theorem objTail_head (es : List (LChar × Value)) (d : Nat) (rest : LChar) :
    ∀ c cs, (serObjItems es false d false ++ ('\x7d' :: rest)) = c :: cs →
      isValidNumberChar c = false := by
  cases es with
  | nil =>
    rw [serObjItems_nil]
    intro c cs h
    rw [List.nil_append, List.cons.injEq] at h
    rw [← h.1]
    decide
  | cons e es2 =>
    rw [serObjItems_false_cons _ _ (by simp)]
    intro c cs h
    rw [List.cons_append, List.cons.injEq] at h
    rw [← h.1]
    decide

theorem arrTail_head (xs : List Value) (d : Nat) (rest : LChar) :
    ∀ c cs, (serArrItems xs false d false ++ (']' :: rest)) = c :: cs →
      isValidNumberChar c = false := by
  cases xs with
  | nil =>
    rw [serArrItems_nil]
    intro c cs h
    rw [List.nil_append, List.cons.injEq] at h
    rw [← h.1]
    decide
  | cons y ys =>
    rw [serArrItems_false_cons _ _ (by simp)]
    intro c cs h
    rw [List.cons_append, List.cons.injEq] at h
    rw [← h.1]
    decide

/-! ## The round-trip induction

Parsing the compact serialization of a well-formed tree from any position
(with any incoming `CurrentToken` and a clean error slot) succeeds, returns
exactly the tree, and consumes exactly the serialized text. -/


theorem sv_bool_true (p : Bool) (d : Nat) :
    serializeValue (.bool true) p d = ['t', 'r', 'u', 'e'] := by
  simp [sv_bool]

theorem sv_bool_false (p : Bool) (d : Nat) :
    serializeValue (.bool false) p d = ['f', 'a', 'l', 's', 'e'] := by
  simp [sv_bool]

mutual

theorem rt_value : ∀ (v : Value), wfV v = true →
    ∀ (f w d : Nat) (input : LChar) (pos : Nat) (c0 : JsonToken) (rest : LChar),
    input.drop pos = List.replicate w ' ' ++ serializeValue v false d ++ rest →
    (∀ c cs, rest = c :: cs → isValidNumberChar c = false) →
    2 * (serializeValue v false d).length + 10 ≤ f →
    ∃ ct, parseValue f ⟨input, pos, c0, none⟩ =
      .ok v ⟨input, pos + w + (serializeValue v false d).length, ct, none⟩
  | .undef, hwf => by rw [wfV] at hwf; cases hwf
  | .float q, hwf => by rw [wfV] at hwf; cases hwf
  | .arrNull, hwf => by rw [wfV] at hwf; cases hwf
  | .objNull, hwf => by rw [wfV] at hwf; cases hwf
  | .null, _ => by
    intro f w d input pos c0 rest hdrop hrest hf
    rw [sv_null] at hdrop hf ⊢
    obtain ⟨f', rfl⟩ : ∃ f', f = f' + 1 := ⟨f - 1, by omega⟩
    have hnt := nextToken_null input pos w rest (by simpa using hdrop)
    have hpk := peek_state ⟨input, pos, c0, none⟩ _ _ hnt (by simp)
    have hcs := consume_state (⟨input, pos, ⟨.Null, pos + w, ['n', 'u', 'l', 'l']⟩,
      none⟩ : PSt) _ _ hnt (by simp)
    refine ⟨⟨.Null, pos + w, ['n', 'u', 'l', 'l']⟩, ?_⟩
    simp only [parseValue]
    rw [hpk]
    dsimp only
    rw [hcs]
    rfl
  | .bool b, _ => by
    intro f w d input pos c0 rest hdrop hrest hf
    obtain ⟨f', rfl⟩ : ∃ f', f = f' + 1 := ⟨f - 1, by omega⟩
    cases b
    · rw [sv_bool_false] at hdrop hf ⊢
      have hnt := nextToken_false input pos w rest (by simpa using hdrop)
      have hpk := peek_state ⟨input, pos, c0, none⟩ _ _ hnt (by simp)
      have hcs := consume_state (⟨input, pos,
        ⟨.Boolean, pos + w, ['f', 'a', 'l', 's', 'e']⟩, none⟩ : PSt) _ _ hnt
        (by simp)
      refine ⟨⟨.Boolean, pos + w, ['f', 'a', 'l', 's', 'e']⟩, ?_⟩
      simp only [parseValue]
      rw [hpk]
      dsimp only
      rw [hcs]
      rfl
    · rw [sv_bool_true] at hdrop hf ⊢
      have hnt := nextToken_true input pos w rest (by simpa using hdrop)
      have hpk := peek_state ⟨input, pos, c0, none⟩ _ _ hnt (by simp)
      have hcs := consume_state (⟨input, pos,
        ⟨.Boolean, pos + w, ['t', 'r', 'u', 'e']⟩, none⟩ : PSt) _ _ hnt (by simp)
      refine ⟨⟨.Boolean, pos + w, ['t', 'r', 'u', 'e']⟩, ?_⟩
      simp only [parseValue]
      rw [hpk]
      dsimp only
      rw [hcs]
      rfl
  | .int n, hwf => by
    intro f w d input pos c0 rest hdrop hrest hf
    rw [sv_int] at hdrop hf ⊢
    obtain ⟨f', rfl⟩ : ∃ f', f = f' + 1 := ⟨f - 1, by omega⟩
    have hb := wfV_int_bounds n hwf
    have hnt := nextToken_intToDec input pos w n rest hrest (by simpa using hdrop)
    have hpk := peek_state ⟨input, pos, c0, none⟩ _ _ hnt (by simp)
    have hcs := consume_state (⟨input, pos,
      ⟨.Number, pos + w, intToDec n⟩, none⟩ : PSt) _ _ hnt (by simp)
    refine ⟨⟨.Number, pos + w, intToDec n⟩, ?_⟩
    simp only [parseValue]
    rw [hpk]
    dsimp only
    rw [hcs]
    dsimp only
    rw [numberConvert_intToDec n hb.1 hb.2]
  | .str s, hwf => by
    intro f w d input pos c0 rest hdrop hrest hf
    rw [sv_str] at hdrop hf ⊢
    obtain ⟨f', rfl⟩ : ∃ f', f = f' + 1 := ⟨f - 1, by omega⟩
    have hnt := nextToken_string input pos w s rest (wfV_str_plain s hwf)
      (by simpa [List.append_assoc] using hdrop)
    have hpk := peek_state ⟨input, pos, c0, none⟩ _ _ hnt (by simp)
    have hcs := consume_state (⟨input, pos,
      ⟨.String, pos + w, s⟩, none⟩ : PSt) _ _ hnt (by simp)
    have hlen : ('"' :: s ++ ['"'] : LChar).length = s.length + 2 := by simp
    refine ⟨⟨.String, pos + w, s⟩, ?_⟩
    simp only [parseValue]
    rw [hpk]
    dsimp only
    rw [hcs, hlen]
  | .obj ps, hwf => by
    intro f w d input pos c0 rest hdrop hrest hf
    rw [sv_obj] at hdrop hf ⊢
    obtain ⟨f', rfl⟩ : ∃ f', f = f' + 1 := ⟨f - 1, by omega⟩
    have hdropB : input.drop pos = List.replicate w ' ' ++
        ('\x7b' :: (serObjItems ps false (d + 1) true ++ ('\x7d' :: rest))) := by
      rw [hdrop, serializeObject_false]
      simp
    have hnt := nextToken_lbrace input pos w _ hdropB
    have hpk := peek_state ⟨input, pos, c0, none⟩ _ _ hnt (by simp)
    obtain ⟨ct, hobj⟩ := rt_object ps (wfV_obj_wf ps hwf) f' w (d + 1) input pos
      ⟨.ObjectStart, pos + w, ['\x7b']⟩ rest hdrop (by omega)
    refine ⟨ct, ?_⟩
    simp only [parseValue]
    rw [hpk]
    dsimp only
    rw [hobj]
  | .arr xs, hwf => by
    intro f w d input pos c0 rest hdrop hrest hf
    rw [sv_arr] at hdrop hf ⊢
    obtain ⟨f', rfl⟩ : ∃ f', f = f' + 1 := ⟨f - 1, by omega⟩
    have hdropB : input.drop pos = List.replicate w ' ' ++
        ('[' :: (serArrItems xs false (d + 1) true ++ (']' :: rest))) := by
      rw [hdrop, serializeArray_false]
      simp
    have hnt := nextToken_lbrack input pos w _ hdropB
    have hpk := peek_state ⟨input, pos, c0, none⟩ _ _ hnt (by simp)
    obtain ⟨ct, harr⟩ := rt_array xs (wfV_arr_wf xs hwf) f' w (d + 1) input pos
      ⟨.ArrayStart, pos + w, ['[']⟩ rest hdrop (by omega)
    refine ⟨ct, ?_⟩
    simp only [parseValue]
    rw [hpk]
    dsimp only
    rw [harr]
termination_by v _ => 4 * sizeOf v + 3
decreasing_by all_goals (simp_wf <;> omega)

theorem rt_object : ∀ (ps : List (LChar × Value)), wfProps ps = true →
    ∀ (f w d : Nat) (input : LChar) (pos : Nat) (c0 : JsonToken) (rest : LChar),
    input.drop pos = List.replicate w ' ' ++ serializeObject ps false d ++ rest →
    2 * (serializeObject ps false d).length + 9 ≤ f →
    ∃ ct, parseObject f ⟨input, pos, c0, none⟩ =
      .ok (some ps) ⟨input, pos + w + (serializeObject ps false d).length, ct, none⟩
  | [], _ => by
    intro f w d input pos c0 rest hdrop hf
    rw [serializeObject_false] at hdrop hf ⊢
    obtain ⟨f', rfl⟩ : ∃ f', f = f' + 1 := ⟨f - 1, by omega⟩
    have hdropB : input.drop pos = List.replicate w ' ' ++
        ('\x7b' :: (serObjItems ([] : List (LChar × Value)) false d true ++
          ('\x7d' :: rest))) := by
      rw [hdrop]
      simp
    have hnt1 := nextToken_lbrace input pos w _ hdropB
    have hcs1 := consume_state (⟨input, pos, c0, none⟩ : PSt) _ _ hnt1 (by simp)
    have hdw : input.drop (pos + w) =
        '\x7b' :: (serObjItems ([] : List (LChar × Value)) false d true ++
          ('\x7d' :: rest)) := by
      rw [drop_shift input pos w _ hdropB, drop_replicate_append]
    have hdropI : input.drop (pos + w + 1) = '\x7d' :: rest := by
      rw [drop_shift input (pos + w) 1 _ hdw]
      simp [serObjItems_nil]
    have hnt2 := nextToken_rbrace input (pos + w + 1) 0 rest
      (by simpa using hdropI)
    have hpk2 := peek_state (⟨input, pos + w + 1,
      ⟨.ObjectStart, pos + w, ['\x7b']⟩, none⟩ : PSt) _ _ hnt2 (by simp)
    have hcs2 := consume_state (⟨input, pos + w + 1,
      ⟨.ObjectEnd, pos + w + 1 + 0, ['\x7d']⟩, none⟩ : PSt) _ _ hnt2 (by simp)
    refine ⟨⟨.ObjectEnd, pos + w + 1 + 0, ['\x7d']⟩, ?_⟩
    simp only [parseObject]
    rw [hcs1]
    dsimp only
    rw [if_neg (by simp)]
    rw [hpk2]
    dsimp only
    rw [if_pos rfl]
    rw [hcs2]
    simp only [PRes.ok.injEq, PSt.mk.injEq, serObjItems_nil, List.nil_append,
      List.length_cons, List.length_append, List.length_nil, true_and, and_true]
    all_goals omega
  | (k, v) :: es, hwf => by
    intro f w d input pos c0 rest hdrop hf
    obtain ⟨hkp, hv, hknotin, hes⟩ := wfProps_cons k v es hwf
    rw [serializeObject_false] at hdrop hf ⊢
    obtain ⟨f', rfl⟩ : ∃ f', f = f' + 1 := ⟨f - 1, by omega⟩
    have hdropB : input.drop pos = List.replicate w ' ' ++
        ('\x7b' :: (serObjItems ((k, v) :: es) false d true ++
          ('\x7d' :: rest))) := by
      rw [hdrop]
      simp
    have hnt1 := nextToken_lbrace input pos w _ hdropB
    have hcs1 := consume_state (⟨input, pos, c0, none⟩ : PSt) _ _ hnt1 (by simp)
    have hdw : input.drop (pos + w) =
        '\x7b' :: (serObjItems ((k, v) :: es) false d true ++
          ('\x7d' :: rest)) := by
      rw [drop_shift input pos w _ hdropB, drop_replicate_append]
    have hdropI : input.drop (pos + w + 1) =
        serObjItems ((k, v) :: es) false d true ++ ('\x7d' :: rest) := by
      rw [drop_shift input (pos + w) 1 _ hdw]
      simp
    have hdropK : input.drop (pos + w + 1) = '"' ::
        (k ++ ('"' :: (':' :: (' ' :: (serializeValue v false d ++
          (serObjItems es false d false ++ ('\x7d' :: rest))))))) := by
      rw [hdropI, serObjItems_true_cons]
      simp
    have hnt2 := nextToken_string input (pos + w + 1) 0 k _ hkp
      (by simpa using hdropK)
    have hpk2 := peek_state (⟨input, pos + w + 1,
      ⟨.ObjectStart, pos + w, ['\x7b']⟩, none⟩ : PSt) _ _ hnt2 (by simp)
    obtain ⟨ct, hloop⟩ := rt_objLoop ((k, v) :: es) (by simp) hwf []
      (by intro p hp; rfl) f' d input (pos + w + 1)
      ⟨.String, pos + w + 1 + 0, k⟩ rest hdropI rfl
      (by
        simp only [List.length_cons, List.length_append, List.length_nil] at hf
        omega)
    refine ⟨ct, ?_⟩
    simp only [parseObject]
    rw [hcs1]
    dsimp only
    rw [if_neg (by simp)]
    rw [hpk2]
    dsimp only
    rw [if_neg (by simp)]
    rw [hloop]
    simp only [PRes.ok.injEq, PSt.mk.injEq, List.nil_append, List.length_cons,
      List.length_append, List.length_nil, true_and, and_true]
    all_goals omega
termination_by ps _ => 4 * sizeOf ps + 2
decreasing_by all_goals (simp_wf <;> omega)

theorem rt_array : ∀ (xs : List Value), wfArr xs = true →
    ∀ (f w d : Nat) (input : LChar) (pos : Nat) (c0 : JsonToken) (rest : LChar),
    input.drop pos = List.replicate w ' ' ++ serializeArray xs false d ++ rest →
    2 * (serializeArray xs false d).length + 9 ≤ f →
    ∃ ct, parseArray f ⟨input, pos, c0, none⟩ =
      .ok (some xs) ⟨input, pos + w + (serializeArray xs false d).length, ct, none⟩
  | [], _ => by
    intro f w d input pos c0 rest hdrop hf
    rw [serializeArray_false] at hdrop hf ⊢
    obtain ⟨f', rfl⟩ : ∃ f', f = f' + 1 := ⟨f - 1, by omega⟩
    have hdropB : input.drop pos = List.replicate w ' ' ++
        ('[' :: (serArrItems ([] : List Value) false d true ++
          (']' :: rest))) := by
      rw [hdrop]
      simp
    have hnt1 := nextToken_lbrack input pos w _ hdropB
    have hcs1 := consume_state (⟨input, pos, c0, none⟩ : PSt) _ _ hnt1 (by simp)
    have hdw : input.drop (pos + w) =
        '[' :: (serArrItems ([] : List Value) false d true ++ (']' :: rest)) := by
      rw [drop_shift input pos w _ hdropB, drop_replicate_append]
    have hdropI : input.drop (pos + w + 1) = ']' :: rest := by
      rw [drop_shift input (pos + w) 1 _ hdw]
      simp [serArrItems_nil]
    have hnt2 := nextToken_rbrack input (pos + w + 1) 0 rest
      (by simpa using hdropI)
    have hpk2 := peek_state (⟨input, pos + w + 1,
      ⟨.ArrayStart, pos + w, ['[']⟩, none⟩ : PSt) _ _ hnt2 (by simp)
    have hcs2 := consume_state (⟨input, pos + w + 1,
      ⟨.ArrayEnd, pos + w + 1 + 0, [']']⟩, none⟩ : PSt) _ _ hnt2 (by simp)
    refine ⟨⟨.ArrayEnd, pos + w + 1 + 0, [']']⟩, ?_⟩
    simp only [parseArray]
    rw [hcs1]
    dsimp only
    rw [if_neg (by simp)]
    rw [hpk2]
    dsimp only
    rw [if_pos rfl]
    rw [hcs2]
    simp only [PRes.ok.injEq, PSt.mk.injEq, serArrItems_nil, List.nil_append,
      List.length_cons, List.length_append, List.length_nil, true_and, and_true]
    all_goals omega
  | x :: xs2, hwf => by
    intro f w d input pos c0 rest hdrop hf
    obtain ⟨hx, hxs2⟩ := wfArr_cons x xs2 hwf
    rw [serializeArray_false] at hdrop hf ⊢
    obtain ⟨f', rfl⟩ : ∃ f', f = f' + 1 := ⟨f - 1, by omega⟩
    have hdropB : input.drop pos = List.replicate w ' ' ++
        ('[' :: (serArrItems (x :: xs2) false d true ++ (']' :: rest))) := by
      rw [hdrop]
      simp
    have hnt1 := nextToken_lbrack input pos w _ hdropB
    have hcs1 := consume_state (⟨input, pos, c0, none⟩ : PSt) _ _ hnt1 (by simp)
    have hdw : input.drop (pos + w) =
        '[' :: (serArrItems (x :: xs2) false d true ++ (']' :: rest)) := by
      rw [drop_shift input pos w _ hdropB, drop_replicate_append]
    have hdropI : input.drop (pos + w + 1) =
        serArrItems (x :: xs2) false d true ++ (']' :: rest) := by
      rw [drop_shift input (pos + w) 1 _ hdw]
      simp
    have hdropV : input.drop (pos + w + 1) = serializeValue x false d ++
        (serArrItems xs2 false d false ++ (']' :: rest)) := by
      rw [hdropI, serArrItems_true_cons]
      simp
    obtain ⟨t, p2, hnt2, hty⟩ := value_head_tok x hx input (pos + w + 1) d _
      hdropV (arrTail_head xs2 d rest)
    have htInv : t.type ≠ .Invalid := by
      rcases hty with h | h | h | h | h | h <;> rw [h] <;> simp
    have htEnd : ¬ (t.type = .ArrayEnd) := by
      rcases hty with h | h | h | h | h | h <;> rw [h] <;> simp
    have hpk2 := peek_state (⟨input, pos + w + 1,
      ⟨.ArrayStart, pos + w, ['[']⟩, none⟩ : PSt) _ _ hnt2 htInv
    obtain ⟨ct, hloop⟩ := rt_arrLoop (x :: xs2) (by simp) hwf [] f' d input
      (pos + w + 1) t rest hdropI
      (by
        simp only [List.length_cons, List.length_append, List.length_nil] at hf
        omega)
    refine ⟨ct, ?_⟩
    simp only [parseArray]
    rw [hcs1]
    dsimp only
    rw [if_neg (by simp)]
    rw [hpk2]
    dsimp only
    rw [if_neg htEnd]
    rw [hloop]
    simp only [PRes.ok.injEq, PSt.mk.injEq, List.nil_append, List.length_cons,
      List.length_append, List.length_nil, true_and, and_true]
    all_goals omega
termination_by xs _ => 4 * sizeOf xs + 2
decreasing_by all_goals (simp_wf <;> omega)

theorem rt_objLoop : ∀ (es : List (LChar × Value)), es ≠ [] → wfProps es = true →
    ∀ (acc : List (LChar × Value)), (∀ p ∈ es, lookupKey p.1 acc = none) →
    ∀ (f d : Nat) (input : LChar) (pos : Nat) (c0 : JsonToken) (rest : LChar),
    input.drop pos = serObjItems es false d true ++ ('\x7d' :: rest) →
    c0.type = .String →
    2 * (serObjItems es false d true).length + 12 ≤ f →
    ∃ ct, parseObjLoop f acc ⟨input, pos, c0, none⟩ =
      .ok (some (acc ++ es))
        ⟨input, pos + (serObjItems es false d true).length + 1, ct, none⟩
  | [], hne, _ => absurd rfl hne
  | (k, v) :: [], _, hwf => by
    intro acc hdisj f d input pos c0 rest hdrop hc0 hf
    obtain ⟨hkp, hv, hknotin, hes⟩ := wfProps_cons k v [] hwf
    obtain ⟨f', rfl⟩ : ∃ f', f = f' + 1 := ⟨f - 1, by omega⟩
    rw [serObjItems_true_cons] at hdrop hf ⊢
    have hdropK : input.drop pos = '"' ::
        (k ++ ('"' :: (':' :: (' ' :: (serializeValue v false d ++
          ('\x7d' :: rest)))))) := by
      rw [hdrop]
      simp [serObjItems_nil]
    have hnt1 := nextToken_string input pos 0 k _ hkp (by simpa using hdropK)
    have hcs1 := consume_state (⟨input, pos, c0, none⟩ : PSt) _ _ hnt1 (by simp)
    have hdropC : input.drop (pos + 0 + (k.length + 2)) =
        ':' :: (' ' :: (serializeValue v false d ++ ('\x7d' :: rest))) := by
      rw [show pos + 0 + (k.length + 2) = pos + (k.length + 2) from by omega]
      rw [drop_shift input pos (k.length + 2) _ hdropK]
      exact drop_cons_append_cons _ _ _ _
    have hnt2 := nextToken_colon input (pos + 0 + (k.length + 2)) 0 _
      (by simpa using hdropC)
    have hcs2 := consume_state (⟨input, pos + 0 + (k.length + 2),
      ⟨.String, pos + 0, k⟩, none⟩ : PSt) _ _ hnt2 (by simp)
    have h1 : input.drop (pos + 0 + (k.length + 2) + 1) =
        ' ' :: (serializeValue v false d ++ ('\x7d' :: rest)) := by
      rw [drop_shift input (pos + 0 + (k.length + 2)) 1 _ hdropC]
      simp
    have hdropSp : input.drop (pos + 0 + (k.length + 2) + 0 + 1) =
        List.replicate 1 ' ' ++ serializeValue v false d ++ ('\x7d' :: rest) := by
      rw [show pos + 0 + (k.length + 2) + 0 + 1 =
        pos + 0 + (k.length + 2) + 1 from by omega]
      rw [h1]
      simp
    obtain ⟨ct1, hval⟩ := rt_value v hv f' 1 d input
      (pos + 0 + (k.length + 2) + 0 + 1)
      ⟨.Colon, pos + 0 + (k.length + 2) + 0, [':']⟩
      ('\x7d' :: rest) hdropSp
      (by
        intro c cs h
        rw [List.cons.injEq] at h
        rw [← h.1]
        decide)
      (by
        simp only [List.length_cons, List.length_append] at hf
        omega)
    have hdropA : input.drop (pos + 0 + (k.length + 2) + 0 + 1 + 1 +
        (serializeValue v false d).length) = '\x7d' :: rest := by
      rw [show pos + 0 + (k.length + 2) + 0 + 1 + 1 +
          (serializeValue v false d).length =
        (pos + 0 + (k.length + 2) + 1) +
          ((serializeValue v false d).length + 1) from by omega]
      rw [drop_shift input (pos + 0 + (k.length + 2) + 1) _ _ h1]
      rw [List.drop_succ_cons]
      exact drop_append_self _ _
    have hacc : emplaceEntry k v acc = acc ++ [(k, v)] :=
      emplaceEntry_absent k v acc (hdisj (k, v) (List.mem_cons_self _ _))
    have hnt3 := nextToken_rbrace input (pos + 0 + (k.length + 2) + 0 + 1 + 1 +
      (serializeValue v false d).length) 0 rest (by simpa using hdropA)
    have hcs3 := consume_state (⟨input, pos + 0 + (k.length + 2) + 0 + 1 + 1 +
      (serializeValue v false d).length, ct1, none⟩ : PSt) _ _ hnt3 (by simp)
    refine ⟨⟨.ObjectEnd, pos + 0 + (k.length + 2) + 0 + 1 + 1 +
      (serializeValue v false d).length + 0, ['\x7d']⟩, ?_⟩
    simp only [parseObjLoop]
    rw [if_neg (by simp [hc0])]
    rw [hcs1]
    dsimp only
    rw [hcs2]
    dsimp only
    rw [if_neg (by simp)]
    rw [hval]
    dsimp only
    rw [if_neg (by simp [hasErrorSt])]
    rw [hcs3]
    dsimp only
    rw [if_neg (by simp)]
    rw [if_pos rfl]
    simp only [PRes.ok.injEq, PSt.mk.injEq, hacc, serObjItems_nil,
      List.append_nil, List.length_cons, List.length_append, List.length_nil,
      true_and, and_true]
    all_goals omega
  | (k, v) :: (k2, v2) :: es2, _, hwf => by
    intro acc hdisj f d input pos c0 rest hdrop hc0 hf
    obtain ⟨hkp, hv, hknotin, hes⟩ := wfProps_cons k v ((k2, v2) :: es2) hwf
    obtain ⟨hk2p, hv2, hk2notin, hes2⟩ := wfProps_cons k2 v2 es2 hes
    obtain ⟨f', rfl⟩ : ∃ f', f = f' + 1 := ⟨f - 1, by omega⟩
    rw [serObjItems_true_cons] at hdrop hf ⊢
    have hdropK : input.drop pos = '"' ::
        (k ++ ('"' :: (':' :: (' ' :: (serializeValue v false d ++
          (serObjItems ((k2, v2) :: es2) false d false ++
            ('\x7d' :: rest))))))) := by
      rw [hdrop]
      simp
    have hnt1 := nextToken_string input pos 0 k _ hkp (by simpa using hdropK)
    have hcs1 := consume_state (⟨input, pos, c0, none⟩ : PSt) _ _ hnt1 (by simp)
    have hdropC : input.drop (pos + 0 + (k.length + 2)) =
        ':' :: (' ' :: (serializeValue v false d ++
          (serObjItems ((k2, v2) :: es2) false d false ++
            ('\x7d' :: rest)))) := by
      rw [show pos + 0 + (k.length + 2) = pos + (k.length + 2) from by omega]
      rw [drop_shift input pos (k.length + 2) _ hdropK]
      exact drop_cons_append_cons _ _ _ _
    have hnt2 := nextToken_colon input (pos + 0 + (k.length + 2)) 0 _
      (by simpa using hdropC)
    have hcs2 := consume_state (⟨input, pos + 0 + (k.length + 2),
      ⟨.String, pos + 0, k⟩, none⟩ : PSt) _ _ hnt2 (by simp)
    have h1 : input.drop (pos + 0 + (k.length + 2) + 1) =
        ' ' :: (serializeValue v false d ++
          (serObjItems ((k2, v2) :: es2) false d false ++ ('\x7d' :: rest))) := by
      rw [drop_shift input (pos + 0 + (k.length + 2)) 1 _ hdropC]
      simp
    have hdropSp : input.drop (pos + 0 + (k.length + 2) + 0 + 1) =
        List.replicate 1 ' ' ++ serializeValue v false d ++
          (serObjItems ((k2, v2) :: es2) false d false ++ ('\x7d' :: rest)) := by
      rw [show pos + 0 + (k.length + 2) + 0 + 1 =
        pos + 0 + (k.length + 2) + 1 from by omega]
      rw [h1]
      simp
    obtain ⟨ct1, hval⟩ := rt_value v hv f' 1 d input
      (pos + 0 + (k.length + 2) + 0 + 1)
      ⟨.Colon, pos + 0 + (k.length + 2) + 0, [':']⟩
      (serObjItems ((k2, v2) :: es2) false d false ++ ('\x7d' :: rest)) hdropSp
      (objTail_head ((k2, v2) :: es2) d rest)
      (by
        simp only [List.length_cons, List.length_append] at hf
        omega)
    have hdropA : input.drop (pos + 0 + (k.length + 2) + 0 + 1 + 1 +
        (serializeValue v false d).length) =
        serObjItems ((k2, v2) :: es2) false d false ++ ('\x7d' :: rest) := by
      rw [show pos + 0 + (k.length + 2) + 0 + 1 + 1 +
          (serializeValue v false d).length =
        (pos + 0 + (k.length + 2) + 1) +
          ((serializeValue v false d).length + 1) from by omega]
      rw [drop_shift input (pos + 0 + (k.length + 2) + 1) _ _ h1]
      rw [List.drop_succ_cons]
      exact drop_append_self _ _
    have hacc : emplaceEntry k v acc = acc ++ [(k, v)] :=
      emplaceEntry_absent k v acc (hdisj (k, v) (List.mem_cons_self _ _))
    rw [serObjItems_false_cons _ _ (by simp)] at hdropA
    simp only [List.cons_append] at hdropA
    have hnt3 := nextToken_comma input (pos + 0 + (k.length + 2) + 0 + 1 + 1 +
      (serializeValue v false d).length) 0 _ (by simpa using hdropA)
    have hcs3 := consume_state (⟨input, pos + 0 + (k.length + 2) + 0 + 1 + 1 +
      (serializeValue v false d).length, ct1, none⟩ : PSt) _ _ hnt3 (by simp)
    have hdropA2 : input.drop (pos + 0 + (k.length + 2) + 0 + 1 + 1 +
        (serializeValue v false d).length + 0 + 1) =
        serObjItems ((k2, v2) :: es2) false d true ++ ('\x7d' :: rest) := by
      rw [show pos + 0 + (k.length + 2) + 0 + 1 + 1 +
          (serializeValue v false d).length + 0 + 1 =
        (pos + 0 + (k.length + 2) + 0 + 1 + 1 +
          (serializeValue v false d).length) + 1 from by omega]
      rw [drop_shift input _ 1 _ hdropA]
      simp
    have hdropK2 : input.drop (pos + 0 + (k.length + 2) + 0 + 1 + 1 +
        (serializeValue v false d).length + 0 + 1) = '"' ::
        (k2 ++ ('"' :: (':' :: (' ' :: (serializeValue v2 false d ++
          (serObjItems es2 false d false ++ ('\x7d' :: rest))))))) := by
      rw [hdropA2, serObjItems_true_cons]
      simp
    have hnt4 := nextToken_string input (pos + 0 + (k.length + 2) + 0 + 1 + 1 +
      (serializeValue v false d).length + 0 + 1) 0 k2 _ hk2p
      (by simpa using hdropK2)
    have hpk4 := peek_state (⟨input, pos + 0 + (k.length + 2) + 0 + 1 + 1 +
      (serializeValue v false d).length + 0 + 1,
      ⟨.Comma, pos + 0 + (k.length + 2) + 0 + 1 + 1 +
        (serializeValue v false d).length + 0, [',']⟩, none⟩ : PSt) _ _ hnt4
      (by simp)
    have hdisj2 : ∀ p ∈ (k2, v2) :: es2,
        lookupKey p.1 (emplaceEntry k v acc) = none := by
      simp only [hacc]
      exact lookup_push k v acc ((k2, v2) :: es2) hdisj hknotin
    obtain ⟨ct, hloop⟩ := rt_objLoop ((k2, v2) :: es2) (by simp) hes
      (emplaceEntry k v acc) hdisj2 f' d input
      (pos + 0 + (k.length + 2) + 0 + 1 + 1 +
        (serializeValue v false d).length + 0 + 1)
      ⟨.String, pos + 0 + (k.length + 2) + 0 + 1 + 1 +
        (serializeValue v false d).length + 0 + 1 + 0, k2⟩ rest hdropA2 rfl
      (by
        rw [serObjItems_false_cons ((k2, v2) :: es2) d (by simp)] at hf
        simp only [List.length_cons, List.length_append] at hf
        omega)
    refine ⟨ct, ?_⟩
    simp only [parseObjLoop]
    rw [if_neg (by simp [hc0])]
    rw [hcs1]
    dsimp only
    rw [hcs2]
    dsimp only
    rw [if_neg (by simp)]
    rw [hval]
    dsimp only
    rw [if_neg (by simp [hasErrorSt])]
    rw [hcs3]
    dsimp only
    rw [if_neg (by simp)]
    rw [if_neg (by simp)]
    rw [hpk4]
    rw [hloop]
    rw [serObjItems_false_cons ((k2, v2) :: es2) d (by simp)]
    simp only [PRes.ok.injEq, PSt.mk.injEq, hacc, List.append_assoc,
      List.cons_append, List.nil_append, List.length_cons, List.length_append,
      List.length_nil, true_and, and_true]
    all_goals omega
termination_by es _ _ => 4 * sizeOf es + 1
decreasing_by all_goals (simp_wf <;> omega)

theorem rt_arrLoop : ∀ (xs : List Value), xs ≠ [] → wfArr xs = true →
    ∀ (acc : List Value) (f d : Nat) (input : LChar) (pos : Nat)
      (c0 : JsonToken) (rest : LChar),
    input.drop pos = serArrItems xs false d true ++ (']' :: rest) →
    2 * (serArrItems xs false d true).length + 12 ≤ f →
    ∃ ct, parseArrLoop f acc ⟨input, pos, c0, none⟩ =
      .ok (some (acc ++ xs))
        ⟨input, pos + (serArrItems xs false d true).length + 1, ct, none⟩
  | [], hne, _ => absurd rfl hne
  | x :: [], _, hwf => by
    intro acc f d input pos c0 rest hdrop hf
    obtain ⟨hx, hxs⟩ := wfArr_cons x [] hwf
    obtain ⟨f', rfl⟩ : ∃ f', f = f' + 1 := ⟨f - 1, by omega⟩
    rw [serArrItems_true_cons] at hdrop hf ⊢
    have hdropV : input.drop pos = List.replicate 0 ' ' ++
        serializeValue x false d ++ (']' :: rest) := by
      rw [hdrop]
      simp [serArrItems_nil]
    have hdropV0 : input.drop pos = serializeValue x false d ++ (']' :: rest) := by
      rw [hdrop]
      simp [serArrItems_nil]
    obtain ⟨ct1, hval⟩ := rt_value x hx f' 0 d input pos c0
      (']' :: rest) hdropV
      (by
        intro c cs h
        rw [List.cons.injEq] at h
        rw [← h.1]
        decide)
      (by
        simp only [List.length_append] at hf
        omega)
    have hdropA : input.drop (pos + 0 + (serializeValue x false d).length) =
        ']' :: rest := by
      rw [show pos + 0 + (serializeValue x false d).length =
        pos + (serializeValue x false d).length from by omega]
      rw [drop_shift input pos _ _ hdropV0]
      exact drop_append_self _ _
    have hnt2 := nextToken_rbrack input
      (pos + 0 + (serializeValue x false d).length) 0 rest
      (by simpa using hdropA)
    have hcs2 := consume_state (⟨input,
      pos + 0 + (serializeValue x false d).length, ct1, none⟩ : PSt) _ _ hnt2
      (by simp)
    refine ⟨⟨.ArrayEnd, pos + 0 + (serializeValue x false d).length + 0,
      [']']⟩, ?_⟩
    simp only [parseArrLoop]
    rw [hval]
    dsimp only
    rw [if_neg (by simp [hasErrorSt])]
    rw [hcs2]
    dsimp only
    rw [if_neg (by simp)]
    rw [if_pos rfl]
    simp only [PRes.ok.injEq, PSt.mk.injEq, serArrItems_nil, List.append_nil,
      List.length_append, List.length_nil, List.length_cons, true_and, and_true]
    all_goals omega
  | x :: y :: ys, _, hwf => by
    intro acc f d input pos c0 rest hdrop hf
    obtain ⟨hx, hxs⟩ := wfArr_cons x (y :: ys) hwf
    obtain ⟨hy, hys⟩ := wfArr_cons y ys hxs
    obtain ⟨f', rfl⟩ : ∃ f', f = f' + 1 := ⟨f - 1, by omega⟩
    rw [serArrItems_true_cons] at hdrop hf ⊢
    have hdropV : input.drop pos = List.replicate 0 ' ' ++
        serializeValue x false d ++
        (serArrItems (y :: ys) false d false ++ (']' :: rest)) := by
      rw [hdrop]
      simp
    have hdropV0 : input.drop pos = serializeValue x false d ++
        (serArrItems (y :: ys) false d false ++ (']' :: rest)) := by
      rw [hdrop]
      simp
    obtain ⟨ct1, hval⟩ := rt_value x hx f' 0 d input pos c0
      (serArrItems (y :: ys) false d false ++ (']' :: rest)) hdropV
      (arrTail_head (y :: ys) d rest)
      (by
        simp only [List.length_append] at hf
        omega)
    have hdropA : input.drop (pos + 0 + (serializeValue x false d).length) =
        serArrItems (y :: ys) false d false ++ (']' :: rest) := by
      rw [show pos + 0 + (serializeValue x false d).length =
        pos + (serializeValue x false d).length from by omega]
      rw [drop_shift input pos _ _ hdropV0]
      exact drop_append_self _ _
    rw [serArrItems_false_cons _ _ (by simp)] at hdropA
    simp only [List.cons_append] at hdropA
    have hnt2 := nextToken_comma input
      (pos + 0 + (serializeValue x false d).length) 0 _ (by simpa using hdropA)
    have hcs2 := consume_state (⟨input,
      pos + 0 + (serializeValue x false d).length, ct1, none⟩ : PSt) _ _ hnt2
      (by simp)
    have hdropA2 : input.drop
        (pos + 0 + (serializeValue x false d).length + 0 + 1) =
        serArrItems (y :: ys) false d true ++ (']' :: rest) := by
      rw [show pos + 0 + (serializeValue x false d).length + 0 + 1 =
        (pos + 0 + (serializeValue x false d).length) + 1 from by omega]
      rw [drop_shift input _ 1 _ hdropA]
      simp
    have hdropY : input.drop
        (pos + 0 + (serializeValue x false d).length + 0 + 1) =
        serializeValue y false d ++
          (serArrItems ys false d false ++ (']' :: rest)) := by
      rw [hdropA2, serArrItems_true_cons]
      simp
    obtain ⟨t2, p2, hnt3, hty⟩ := value_head_tok y hy input
      (pos + 0 + (serializeValue x false d).length + 0 + 1) d _ hdropY
      (arrTail_head ys d rest)
    have htInv : t2.type ≠ .Invalid := by
      rcases hty with h | h | h | h | h | h <;> rw [h] <;> simp
    have hpk3 := peek_state (⟨input,
      pos + 0 + (serializeValue x false d).length + 0 + 1,
      ⟨.Comma, pos + 0 + (serializeValue x false d).length + 0, [',']⟩,
      none⟩ : PSt) _ _ hnt3 htInv
    obtain ⟨ct, hloop⟩ := rt_arrLoop (y :: ys) (by simp) hxs (acc ++ [x]) f' d
      input (pos + 0 + (serializeValue x false d).length + 0 + 1) t2 rest
      hdropA2
      (by
        rw [serArrItems_false_cons (y :: ys) d (by simp)] at hf
        simp only [List.length_cons, List.length_append] at hf
        omega)
    refine ⟨ct, ?_⟩
    simp only [parseArrLoop]
    rw [hval]
    dsimp only
    rw [if_neg (by simp [hasErrorSt])]
    rw [hcs2]
    dsimp only
    rw [if_neg (by simp)]
    rw [if_neg (by simp)]
    rw [hpk3]
    rw [hloop]
    rw [serArrItems_false_cons (y :: ys) d (by simp)]
    simp only [PRes.ok.injEq, PSt.mk.injEq, List.append_assoc, List.cons_append,
      List.nil_append, List.length_cons, List.length_append, List.length_nil,
      true_and, and_true]
    all_goals omega
termination_by xs _ _ => 4 * sizeOf xs + 1
decreasing_by all_goals (simp_wf <;> omega)

end


/-! ## Reflexivity of `treeEquiv` on well-formed trees -/

theorem keyMatch_lookup (k : LChar) (v : Value) :
    ∀ (qs : List (LChar × Value)) (w : Value), lookupKey k qs = some w →
      keyMatch k v qs = treeEquiv v w
  | [], w => by intro h; simp [lookupKey] at h
  | (k2, u) :: qs, w => by
    intro h
    by_cases hk : k = k2
    · rw [lookupKey, if_pos hk] at h
      rw [keyMatch, if_pos hk]
      rw [Option.some.injEq] at h
      rw [h]
    · rw [lookupKey, if_neg hk] at h
      rw [keyMatch, if_neg hk]
      exact keyMatch_lookup k v qs w h

theorem wfProps_lookup_self : ∀ (ps : List (LChar × Value)),
    wfProps ps = true → ∀ p ∈ ps, lookupKey p.1 ps = some p.2
  | [], _ => by intro p hp; cases hp
  | (k, v) :: rest, h => by
    obtain ⟨hkp, hv, hknotin, hrest⟩ := wfProps_cons k v rest h
    intro p hp
    rcases List.mem_cons.mp hp with rfl | hp2
    · rw [lookupKey, if_pos rfl]
    · have hne : ¬ p.1 = k := lookupKey_none_mem k rest hknotin p hp2
      rw [lookupKey, if_neg hne]
      exact wfProps_lookup_self rest hrest p hp2

theorem wfProps_mem_wf : ∀ (ps : List (LChar × Value)), wfProps ps = true →
    ∀ p ∈ ps, wfV p.2 = true
  | [], _ => by intro p hp; cases hp
  | (k, v) :: rest, h => by
    obtain ⟨_, hv, _, hrest⟩ := wfProps_cons k v rest h
    intro p hp
    rcases List.mem_cons.mp hp with rfl | hp2
    · exact hv
    · exact wfProps_mem_wf rest hrest p hp2

theorem keysCovered_self (ps : List (LChar × Value)) (h : wfProps ps = true) :
    keysCovered ps ps = true := by
  rw [keysCovered, List.all_eq_true]
  intro p hp
  rw [wfProps_lookup_self ps h p hp]
  rfl

mutual

theorem treeEquiv_refl : ∀ (v : Value), wfV v = true → treeEquiv v v = true
  | .undef, h => by rw [wfV] at h; cases h
  | .float q, h => by rw [wfV] at h; cases h
  | .arrNull, h => by rw [wfV] at h; cases h
  | .objNull, h => by rw [wfV] at h; cases h
  | .null, _ => by rw [treeEquiv]
  | .bool b, _ => by rw [treeEquiv]; simp
  | .int n, _ => by rw [treeEquiv]; simp
  | .str s, _ => by rw [treeEquiv]; simp
  | .arr xs, h => by
    rw [treeEquiv]
    rw [wfV] at h
    exact arrEquiv_refl xs h
  | .obj ps, h => by
    rw [treeEquiv]
    rw [wfV] at h
    rw [objSub_lookup ps ps (wfProps_mem_wf ps h) (wfProps_lookup_self ps h)]
    rw [keysCovered_self ps h]
    rfl
termination_by v _ => 4 * sizeOf v + 2
decreasing_by all_goals (simp_wf <;> omega)

theorem arrEquiv_refl : ∀ (xs : List Value), wfArr xs = true →
    arrEquiv xs xs = true
  | [], _ => by rw [arrEquiv]
  | x :: xs, h => by
    obtain ⟨h1, h2⟩ := wfArr_cons x xs h
    rw [arrEquiv]
    rw [treeEquiv_refl x h1, arrEquiv_refl xs h2]
    rfl
termination_by xs _ => 4 * sizeOf xs + 1
decreasing_by all_goals (simp_wf <;> omega)

theorem objSub_lookup : ∀ (ps qs : List (LChar × Value)),
    (∀ p ∈ ps, wfV p.2 = true) → (∀ p ∈ ps, lookupKey p.1 qs = some p.2) →
    objSubEquiv ps qs = true
  | [], qs => by intro _ _; rw [objSubEquiv]
  | (k, v) :: rest, qs => by
    intro hwf hlk
    rw [objSubEquiv]
    rw [keyMatch_lookup k v qs v (hlk (k, v) (List.mem_cons_self _ _))]
    rw [treeEquiv_refl v (hwf (k, v) (List.mem_cons_self _ _))]
    rw [objSub_lookup rest qs (fun p hp => hwf p (List.mem_cons_of_mem _ hp))
      (fun p hp => hlk p (List.mem_cons_of_mem _ hp))]
    rfl
termination_by ps _ => 4 * sizeOf ps + 1
decreasing_by all_goals (simp_wf <;> omega)

end

/-- **C1 (amended).** The round-trip does hold on the trees the library can
faithfully carry: for any document whose root object is well formed (unique
keys; strings and keys free of quote, backslash and control characters; no
`Undefined` slots; no null container pointers; no float leaves; integers in
the `int64_t` range), parsing the compact serialization into a fresh
document succeeds with no recorded error and yields a root object
structurally equivalent (key order up to `unordered_map` iteration) to the
original. -/
theorem C1_amended_round_trip (doc : JDoc) (ps : List (LChar × Value))
    (hroot : doc.root = some ps) (hwf : wfProps ps = true) :
    ∃ d2 qs, jsonParse freshDoc (jsonSerialize doc false) = .done d2 ∧
      jsonHasError d2 = false ∧ d2.root = some qs ∧
      treeEquiv (.obj ps) (.obj qs) = true := by
  have hser : jsonSerialize doc false = serializeObject ps false 0 := by
    rw [jsonSerialize, hroot]
  have hdrop : (serializeObject ps false 0).drop 0 =
      List.replicate 0 ' ' ++ serializeObject ps false 0 ++ [] := by
    simp
  have hfuel : 2 * (serializeObject ps false 0).length + 9 ≤
      parseFuel (serializeObject ps false 0) := by
    rw [parseFuel]
    omega
  obtain ⟨ct, hobj⟩ := rt_object ps hwf (parseFuel (serializeObject ps false 0))
    0 0 (serializeObject ps false 0) 0 freshDoc.cur [] hdrop hfuel
  refine ⟨⟨some ps, none, serializeObject ps false 0, ct⟩, ps, ?_, rfl, rfl,
    treeEquiv_refl (.obj ps) (by rw [wfV]; exact hwf)⟩
  rw [hser, jsonParse, hobj]

/-- Witness: the amended C1 theorem evaluated on the one-member document
`\x7b"a": 1\x7d`. -/
theorem C1_amended_round_trip_witness :
    ∃ d2 qs, jsonParse freshDoc (jsonSerialize
        ⟨some [(['a'], .int 1)], none, [], ⟨.Invalid, 0, []⟩⟩ false) =
      .done d2 ∧ jsonHasError d2 = false ∧ d2.root = some qs ∧
      treeEquiv (.obj [(['a'], .int 1)]) (.obj qs) = true :=
  C1_amended_round_trip ⟨some [(['a'], .int 1)], none, [], ⟨.Invalid, 0, []⟩⟩
    [(['a'], .int 1)] rfl
    (by simp [wfProps, wfV, strPlain, lookupKey])

end BMJsonModel
